import Mathlib

/-
Verification of the Simnote native full-text search core.

The repository ships only the N-API declaration header
(src/native/src/simnote_native.h); the body of the search component is
described by the design document.  The definitions below are therefore a
shallow embedding of that component: the tokenizer, the inverted index
with its reverse map, the index manager with generation-tagged snapshots
and guarded persistence, and the query engine with TF-IDF ranking.
Every definition whose implementation file is missing from the sources
carries a doc comment beginning with "Modelled from the spec:".
-/

namespace Simnote

/-! ## Tokenizer -/

/-- Modelled from the spec: the tokenizer splits on word boundaries; a word
character is a letter or a digit, everything else is punctuation to strip
(the implementation `IndexText` in simnote_native.cpp is not in the sources). -/
def isWordChar (c : Char) : Bool := c.isAlpha || c.isDigit

/-- Modelled from the spec: accumulate maximal runs of word characters.
`cur` holds the reversed current run. -/
def wordsAux : List Char → List Char → List (List Char)
  | [], [] => []
  | [], cur => [cur.reverse]
  | c :: rest, cur =>
    if isWordChar c then wordsAux rest (c :: cur)
    else if cur.isEmpty then wordsAux rest []
    else cur.reverse :: wordsAux rest []

/-- Modelled from the spec: `tokenize(text)` returns the ordered sequence of
`(term, position)` pairs: split on word boundaries, lowercase, strip
punctuation; positions are word indices.  The spec scenario searches for
"the" successfully, so the modelled stop-word set is empty, and stemming is
the identity (both are optional in the spec).  Pure by construction. -/
def tokenize (text : String) : List (String × Nat) :=
  ((wordsAux text.data []).map (fun w => String.mk (w.map Char.toLower))).enum.map
    (fun p => (p.2, p.1))

/-- The distinct terms of a token sequence. -/
def termsOf (toks : List (String × Nat)) : List String := (toks.map Prod.fst).dedup

/-- The positions at which a term occurs in a token sequence. -/
def positionsOf (toks : List (String × Nat)) (t : String) : List Nat :=
  (toks.filter (fun p => p.1 = t)).map Prod.snd

/-! ## Data model -/

/-- A posting: occurrence record of one term in one document. -/
structure Posting where
  docId : Nat
  termFrequency : Nat
  positions : List Nat
  deriving DecidableEq, Repr

/-- Document metadata kept by the index. -/
structure DocInfo where
  docId : Nat
  contentHash : String
  length : Nat
  lastIndexedAt : Nat
  deriving DecidableEq, Repr

/-- Modelled from the spec: an index snapshot holds the document table, the
term-to-posting-list map, the reverse document-to-terms map and the
generation number.  `documentCount` and `totalTermOccurrences` are derived
quantities.  Association lists model the hash-keyed tables. -/
structure IndexSnapshot where
  documents : List DocInfo
  postingLists : List (String × List Posting)
  reverseMap : List (Nat × List String)
  generation : Nat
  deriving DecidableEq, Repr

/-- `lookup(term)`: the posting list of a term, empty if the term is absent. -/
def lookupPL (pls : List (String × List Posting)) (t : String) : List Posting :=
  match pls.find? (fun e => e.1 = t) with
  | some e => e.2
  | none => []

/-- The terms a document currently contributes, per the reverse map. -/
def reverseTerms (rm : List (Nat × List String)) (d : Nat) : List String :=
  match rm.find? (fun e => e.1 = d) with
  | some e => e.2
  | none => []

/-- Delete document `d`'s posting from one term-table entry, when the entry's
term is among the affected terms `ts`. -/
def pruneEntry (d : Nat) (ts : List String) (e : String × List Posting) :
    String × List Posting :=
  if e.1 ∈ ts then (e.1, e.2.filter (fun p => p.docId ≠ d)) else e

/-- Modelled from the spec: delete document `d`'s posting from the posting
list of every term in `ts` (the affected terms found via the reverse map),
dropping a posting list entirely if it becomes empty. -/
def removeDocPostings (pls : List (String × List Posting)) (d : Nat) (ts : List String) :
    List (String × List Posting) :=
  (pls.map (pruneEntry d ts)).filter (fun e => !e.2.isEmpty)

/-- Modelled from the spec: `removeDocument` on the inverted index: use the
reverse map to find the affected terms, delete the postings, delete the
reverse-map entry. -/
def removeDocument (s : IndexSnapshot) (d : Nat) : IndexSnapshot :=
  { s with
    postingLists := removeDocPostings s.postingLists d (reverseTerms s.reverseMap d),
    reverseMap := s.reverseMap.filter (fun e => e.1 ≠ d) }

/-- Insert a posting into a posting list kept sorted by `docId`
(replacing an existing posting of the same document). -/
def insertPostingSorted (p : Posting) : List Posting → List Posting
  | [] => [p]
  | q :: rest =>
    if p.docId < q.docId then p :: q :: rest
    else if p.docId = q.docId then p :: rest
    else q :: insertPostingSorted p rest

/-- Insert a posting for term `t` into the term table, creating the
posting list if the term is new. -/
def insertPosting (pls : List (String × List Posting)) (t : String) (p : Posting) :
    List (String × List Posting) :=
  match pls with
  | [] => [(t, [p])]
  | e :: rest =>
    if e.1 = t then (t, insertPostingSorted p e.2) :: rest
    else e :: insertPosting rest t p

/-- The per-term postings document `d` contributes for token sequence `toks`:
one posting per distinct term, frequency = number of occurrences. -/
def docPostings (d : Nat) (toks : List (String × Nat)) : List (String × Posting) :=
  (termsOf toks).map (fun t => (t, ⟨d, (positionsOf toks t).length, positionsOf toks t⟩))

/-- Insert all `(term, posting)` pairs of a document. -/
def insertAll (pls : List (String × List Posting)) (items : List (String × Posting)) :
    List (String × List Posting) :=
  items.foldl (fun acc it => insertPosting acc it.1 it.2) pls

/-- Set the reverse-map entry of document `d`. -/
def setReverse (rm : List (Nat × List String)) (d : Nat) (ts : List String) :
    List (Nat × List String) :=
  (d, ts) :: rm.filter (fun e => e.1 ≠ d)

/-- Set the document-table entry for a document. -/
def setDocument (docs : List DocInfo) (info : DocInfo) : List DocInfo :=
  info :: docs.filter (fun e => e.docId ≠ info.docId)

/-- Find a document's metadata by id. -/
def findDoc (docs : List DocInfo) (d : Nat) : Option DocInfo :=
  docs.find? (fun e => e.docId = d)

/-- Result of `indexTextIncremental`. -/
structure UpdateResult where
  updated : Bool
  termCount : Nat
  deriving DecidableEq, Repr

/-- Result of `removeIndexedDoc`. -/
structure RemoveResult where
  removed : Bool
  deriving DecidableEq, Repr

/-- Modelled from the spec: the update path of `indexIncremental`
(steps 2-5): tokenize fully, remove the old postings via `removeDocument`,
insert the new pairs, update the document metadata, bump the generation. -/
def applyDocUpdate (s : IndexSnapshot) (d : Nat) (text contentHash : String) (now : Nat) :
    IndexSnapshot :=
  let toks := tokenize text
  let s1 := removeDocument s d
  { documents := setDocument s1.documents ⟨d, contentHash, text.length, now⟩,
    postingLists := insertAll s1.postingLists (docPostings d toks),
    reverseMap := setReverse s1.reverseMap d (termsOf toks),
    generation := s.generation + 1 }

/-- Modelled from the spec: `indexIncremental(docId, text, contentHash)`:
idempotent no-op when the stored content hash matches, full recompute
otherwise; returns `{updated, termCount}`. -/
def indexTextIncremental (s : IndexSnapshot) (d : Nat) (text contentHash : String)
    (now : Nat) : IndexSnapshot × UpdateResult :=
  match findDoc s.documents d with
  | some info =>
    if info.contentHash = contentHash then (s, ⟨false, 0⟩)
    else (applyDocUpdate s d text contentHash now, ⟨true, (termsOf (tokenize text)).length⟩)
  | none => (applyDocUpdate s d text contentHash now, ⟨true, (termsOf (tokenize text)).length⟩)

/-- Modelled from the spec: `removeIndexedDoc(docId)`: explicit no-op on an
unknown id, otherwise remove postings, reverse-map entry and document
metadata and bump the generation. -/
def removeIndexedDoc (s : IndexSnapshot) (d : Nat) : IndexSnapshot × RemoveResult :=
  match findDoc s.documents d with
  | some _ =>
    ({ removeDocument s d with
        documents := s.documents.filter (fun e => e.docId ≠ d),
        generation := s.generation + 1 }, ⟨true⟩)
  | none => (s, ⟨false⟩)

/-- The empty snapshot at a given generation. -/
def emptySnapshot (gen : Nat) : IndexSnapshot := ⟨[], [], [], gen⟩

/-- Modelled from the spec: `clearIndex` replaces the snapshot with an empty
one at a new generation. -/
def clearIndexSnap (s : IndexSnapshot) : IndexSnapshot := emptySnapshot (s.generation + 1)

/-- Term statistics returned by the standalone `indexText`. -/
structure TermStat where
  term : String
  frequency : Nat
  positions : List Nat
  deriving DecidableEq, Repr

/-- Modelled from the spec: `indexTextStandalone(text)`: tokenize and return
per-term statistics without touching the managed index. -/
def indexText (text : String) : List TermStat :=
  (termsOf (tokenize text)).map
    (fun t => ⟨t, (positionsOf (tokenize text) t).length, positionsOf (tokenize text) t⟩)

/-! ## Query engine -/

/-- Modelled from the spec: the query string is tokenized with the exact
same tokenizer as indexing; the query's terms are its distinct tokens. -/
def queryTerms (q : String) : List String := termsOf (tokenize q)

/-- Modelled from the spec: OR semantics: the candidate set is the union of
the documents containing any query term. -/
def candidateIds (pls : List (String × List Posting)) (ts : List String) : List Nat :=
  (ts.flatMap (fun t => (lookupPL pls t).map Posting.docId)).dedup

/-- The term frequency of `t` in document `d`, 0 when absent. -/
def termFreqInDoc (pls : List (String × List Posting)) (t : String) (d : Nat) : Nat :=
  match (lookupPL pls t).find? (fun p => p.docId = d) with
  | some p => p.termFrequency
  | none => 0

/-- The document frequency of a term: how many documents contain it. -/
def docFreq (pls : List (String × List Posting)) (t : String) : Nat :=
  (lookupPL pls t).length

/-- The exact positive rational whose logarithm is the TF-IDF score of
document `d` for query terms `ts`: the product over the query terms of
`(totalDocuments / (1 + documentFrequency)) ^ termFrequencyInDoc`.
Ranking compares these exact values, which log-monotonicity shows is the
same order as comparing the real scores. -/
def scoreKey (docs : List DocInfo) (pls : List (String × List Posting))
    (ts : List String) (d : Nat) : ℚ :=
  (ts.map (fun t =>
    ((docs.length : ℚ) / (1 + docFreq pls t)) ^ termFreqInDoc pls t d)).prod

/-- Modelled from the spec: the TF-IDF score of a candidate, as a real
number: the sum over query terms of
`termFrequencyInDoc * log (totalDocuments / (1 + documentFrequency))`,
represented as the logarithm of the exact product `scoreKey`. -/
noncomputable def tfidfScore (docs : List DocInfo) (pls : List (String × List Posting))
    (ts : List String) (d : Nat) : ℝ :=
  Real.log (scoreKey docs pls ts d)

/-- The last-indexed timestamp of a document, 0 when unknown. -/
def lastIndexedOf (docs : List DocInfo) (d : Nat) : Nat :=
  match findDoc docs d with
  | some i => i.lastIndexedAt
  | none => 0

/-- One search result: a document, the exact representation of its score
and its tie-breaking timestamp.  The snippet is reconstructed from the
original document bytes by an external collaborator and is not part of the
index state. -/
structure SearchHit where
  docId : Nat
  scoreOf : ℚ
  lastIndexedAt : Nat
  deriving DecidableEq, Repr

/-- Modelled from the spec: the ranking order: descending score, ties by
more-recent `lastIndexedAt` first, then ascending `docId`.  Comparing the
exact score representations is equivalent to comparing the real scores. -/
def hitLE (a b : SearchHit) : Bool :=
  decide (b.scoreOf < a.scoreOf ∨
    (a.scoreOf = b.scoreOf ∧ (b.lastIndexedAt < a.lastIndexedAt ∨
      (a.lastIndexedAt = b.lastIndexedAt ∧ a.docId ≤ b.docId))))

/-- Sort the candidate hits by the ranking order. -/
def rankHits (hs : List SearchHit) : List SearchHit := hs.mergeSort hitLE

/-- Modelled from the spec: the full ordered result list of a query before
pagination: score every candidate, then sort by the ranking order. -/
def searchAll (docs : List DocInfo) (pls : List (String × List Posting))
    (q : String) : List SearchHit :=
  let ts := queryTerms q
  rankHits ((candidateIds pls ts).map
    (fun d => ⟨d, scoreKey docs pls ts d, lastIndexedOf docs d⟩))

/-- Modelled from the spec: `searchIndex(query, limit, offset)`: `limit` and
`offset` apply to the final ordered list. -/
def searchIndexSnap (s : IndexSnapshot) (q : String) (lim off : Nat) : List SearchHit :=
  ((searchAll s.documents s.postingLists q).drop off).take lim

/-! ## Persistence layer -/

/-- The snapshot file header. -/
structure FileHeader where
  magic : Nat
  formatVersion : Nat
  generation : Nat
  documentCount : Nat
  termCount : Nat
  deriving DecidableEq, Repr

/-- One term-table entry: the term, its document frequency and the slice of
the posting block holding its posting list. -/
structure TermEntry where
  term : String
  documentFrequency : Nat
  postingListOffset : Nat
  postingListLength : Nat
  deriving DecidableEq, Repr

/-- Modelled from the spec: the persisted snapshot file layout: header,
document table, term table with posting-block offsets, posting block. -/
structure SnapshotFile where
  header : FileHeader
  docTable : List DocInfo
  termTable : List TermEntry
  postingBlock : List Posting
  deriving DecidableEq, Repr

/-- The file magic number. -/
def SNAPSHOT_MAGIC : Nat := 0x534e4958

/-- The current on-disk format version. -/
def FORMAT_VERSION : Nat := 1

/-- Build the term table, assigning consecutive posting-block offsets
starting at `off`. -/
def buildTermTable : List (String × List Posting) → Nat → List TermEntry
  | [], _ => []
  | (t, l) :: rest, off => ⟨t, l.length, off, l.length⟩ :: buildTermTable rest (off + l.length)

/-- Modelled from the spec: serialize a snapshot into the file layout:
the posting lists are flattened into one posting block addressed by the
term-table offsets. -/
def serializeSnapshot (s : IndexSnapshot) : SnapshotFile :=
  ⟨⟨SNAPSHOT_MAGIC, FORMAT_VERSION, s.generation, s.documents.length, s.postingLists.length⟩,
   s.documents, buildTermTable s.postingLists 0, (s.postingLists.map Prod.snd).flatten⟩

/-- Read one posting list back out of the posting block. -/
def readPostingList (block : List Posting) (off len : Nat) : List Posting :=
  (block.drop off).take len

/-- Rebuild the reverse map from the loaded posting lists: the file layout
does not store it. -/
def rebuildReverseMap (docs : List DocInfo) (pls : List (String × List Posting)) :
    List (Nat × List String) :=
  docs.map (fun i =>
    (i.docId, (pls.filter (fun e => e.2.any (fun p => p.docId = i.docId))).map Prod.fst))

/-- Modelled from the spec: deserialize a snapshot file: a wrong magic or
format version is rejected (`none`, treated as absent by the loader). -/
def deserializeSnapshot (f : SnapshotFile) : Option IndexSnapshot :=
  if f.header.magic = SNAPSHOT_MAGIC ∧ f.header.formatVersion = FORMAT_VERSION then
    let pls := f.termTable.map
      (fun e => (e.term, readPostingList f.postingBlock e.postingListOffset e.postingListLength))
    some ⟨f.docTable, pls, rebuildReverseMap f.docTable pls, f.header.generation⟩
  else none

/-! ## Index manager -/

/-- The manager's view of the world: the published in-memory snapshot and
the snapshot file currently committed on disk (none when missing). -/
structure ManagerState where
  snap : IndexSnapshot
  disk : Option SnapshotFile
  deriving DecidableEq, Repr

/-- The generation currently committed on disk (0 when the file is
missing). -/
def diskGeneration (disk : Option SnapshotFile) : Nat :=
  match disk with
  | some f => f.header.generation
  | none => 0

/-- Modelled from the spec: persist a snapshot via temp-file plus atomic
rename; `writeOk` is false when the durable write fails, leaving the disk
untouched.  The generation guard keeps an in-flight older write from ever
overwriting a newer snapshot already committed. -/
def persistSnapshot (disk : Option SnapshotFile) (s : IndexSnapshot) (writeOk : Bool) :
    Option SnapshotFile :=
  if writeOk then
    if diskGeneration disk ≤ s.generation then some (serializeSnapshot s) else disk
  else disk

/-- A mutating operation submitted to the index manager. -/
inductive StepOp where
  | clearOp : StepOp
  | incrOp (docId : Nat) (text contentHash : String) (now : Nat) : StepOp
  | removeOp (docId : Nat) : StepOp

/-- The caller-visible result of a manager operation. -/
inductive OpResult where
  | cleared : OpResult
  | updateRes (r : UpdateResult) : OpResult
  | removeRes (r : RemoveResult) : OpResult
  deriving DecidableEq, Repr

/-- A manager operation's outcome: the result plus whether a
`PersistenceError` was surfaced to the caller. -/
structure StepOutcome where
  result : OpResult
  persistenceError : Bool
  deriving DecidableEq, Repr

/-- Whether the outcome reports an actual mutation (a no-op result is
`cleared` never, `updated = false`, or `removed = false`). -/
def mutatedOutcome (o : StepOutcome) : Bool :=
  match o.result with
  | .cleared => true
  | .updateRes r => r.updated
  | .removeRes r => r.removed

/-- Modelled from the spec: one manager step: apply the mutation to the
snapshot, publish the new snapshot, schedule exactly one durable write for
it (no-ops publish and write nothing); a failed write surfaces a
persistence error and leaves the disk untouched. -/
def stepManager (st : ManagerState) (op : StepOp) (writeOk : Bool) :
    ManagerState × StepOutcome :=
  match op with
  | .clearOp =>
    let s1 := clearIndexSnap st.snap
    (⟨s1, persistSnapshot st.disk s1 writeOk⟩, ⟨.cleared, !writeOk⟩)
  | .incrOp d text h now =>
    let r := indexTextIncremental st.snap d text h now
    if r.2.updated then
      (⟨r.1, persistSnapshot st.disk r.1 writeOk⟩, ⟨.updateRes r.2, !writeOk⟩)
    else (st, ⟨.updateRes r.2, false⟩)
  | .removeOp d =>
    let r := removeIndexedDoc st.snap d
    if r.2.removed then
      (⟨r.1, persistSnapshot st.disk r.1 writeOk⟩, ⟨.removeRes r.2, !writeOk⟩)
    else (st, ⟨.removeRes r.2, false⟩)

/-- Modelled from the spec: `createIndex` allocates an empty snapshot at
generation 0 and persists it immediately. -/
def createIndexState (writeOk : Bool) : ManagerState :=
  ⟨emptySnapshot 0, persistSnapshot none (emptySnapshot 0) writeOk⟩

/-- The manager states reachable from `createIndex` through any sequence of
mutating operations, each with an arbitrary durable-write outcome. -/
inductive Reachable : ManagerState → Prop where
  | created (writeOk : Bool) : Reachable (createIndexState writeOk)
  | step {st : ManagerState} (op : StepOp) (writeOk : Bool) :
      Reachable st → Reachable (stepManager st op writeOk).1

/-! ## The structural invariant -/

/-- Document `d` has a posting in the posting list of term `t`. -/
def inPostings (pls : List (String × List Posting)) (t : String) (d : Nat) : Prop :=
  ∃ p ∈ lookupPL pls t, p.docId = d

/-- The reverse map lists term `t` for document `d`. -/
def inReverse (rm : List (Nat × List String)) (d : Nat) (t : String) : Prop :=
  ∃ e ∈ rm, e.1 = d ∧ t ∈ e.2

/-- The structural invariant of a published snapshot: distinct table keys,
posting lists sorted by `docId` and never empty, term frequencies at least
1, reverse-map entries backed by registered documents, and bidirectional
consistency between the reverse map and the posting lists. -/
structure WfSnap (s : IndexSnapshot) : Prop where
  keysNodup : (s.postingLists.map Prod.fst).Nodup
  sortedPL : ∀ e ∈ s.postingLists, e.2.Pairwise (fun p q => p.docId < q.docId)
  nonemptyPL : ∀ e ∈ s.postingLists, e.2 ≠ []
  tfPos : ∀ e ∈ s.postingLists, ∀ p ∈ e.2, 1 ≤ p.termFrequency
  rmKeysNodup : (s.reverseMap.map Prod.fst).Nodup
  docsNodup : (s.documents.map DocInfo.docId).Nodup
  rmDocs : ∀ e ∈ s.reverseMap, ∃ i ∈ s.documents, i.docId = e.1
  consistent : ∀ (d : Nat) (t : String), inReverse s.reverseMap d t ↔ inPostings s.postingLists t d

/-! ## Association-list lemmas -/

theorem lookupPL_nil (t : String) : lookupPL [] t = [] := rfl

theorem lookupPL_cons (e : String × List Posting) (rest : List (String × List Posting))
    (t : String) : lookupPL (e :: rest) t = if e.1 = t then e.2 else lookupPL rest t := by
  by_cases h : e.1 = t
  · simp [lookupPL, List.find?_cons_of_pos, h]
  · simp only [lookupPL, h, if_false]
    rw [List.find?_cons_of_neg]
    simp [h]

theorem lookupPL_eq_nil_of_not_mem_keys {pls : List (String × List Posting)} {t : String}
    (h : t ∉ pls.map Prod.fst) : lookupPL pls t = [] := by
  induction pls with
  | nil => rfl
  | cons e rest ih =>
    simp only [List.map_cons, List.mem_cons, not_or] at h
    rw [lookupPL_cons, if_neg (fun he => h.1 he.symm)]
    exact ih h.2

theorem lookupPL_mem_or_nil (pls : List (String × List Posting)) (t : String) :
    lookupPL pls t = [] ∨ (t, lookupPL pls t) ∈ pls := by
  induction pls with
  | nil => exact Or.inl rfl
  | cons e rest ih =>
    rw [lookupPL_cons]
    by_cases h : e.1 = t
    · subst h
      simp only [if_pos rfl]
      exact Or.inr (List.mem_cons.mpr (Or.inl rfl))
    · simp only [if_neg h]
      rcases ih with h1 | h1
      · exact Or.inl h1
      · exact Or.inr (List.mem_cons_of_mem _ h1)

theorem lookupPL_of_mem_nodup {pls : List (String × List Posting)}
    (hk : (pls.map Prod.fst).Nodup) {e : String × List Posting} (he : e ∈ pls) :
    lookupPL pls e.1 = e.2 := by
  induction pls with
  | nil => cases he
  | cons f rest ih =>
    simp only [List.map_cons, List.nodup_cons] at hk
    rcases List.mem_cons.mp he with rfl | he'
    · rw [lookupPL_cons, if_pos rfl]
    · rw [lookupPL_cons]
      by_cases hf : f.1 = e.1
      · exact absurd (hf ▸ List.mem_map_of_mem Prod.fst he') hk.1
      · rw [if_neg hf]
        exact ih hk.2 he'

/-! ## Sorted-insertion lemmas -/

theorem insertPostingSorted_ne_nil (p : Posting) (l : List Posting) :
    insertPostingSorted p l ≠ [] := by
  cases l with
  | nil => simp [insertPostingSorted]
  | cons q rest =>
    rw [insertPostingSorted]
    by_cases h1 : p.docId < q.docId
    · simp [h1]
    · by_cases h2 : p.docId = q.docId <;> simp [h1, h2]

theorem mem_insertPostingSorted {x p : Posting} {l : List Posting}
    (hx : x ∈ insertPostingSorted p l) : x = p ∨ x ∈ l := by
  induction l with
  | nil => simpa [insertPostingSorted] using hx
  | cons q rest ih =>
    rw [insertPostingSorted] at hx
    by_cases h1 : p.docId < q.docId
    · rw [if_pos h1] at hx
      simpa using hx
    · rw [if_neg h1] at hx
      by_cases h2 : p.docId = q.docId
      · rw [if_pos h2] at hx
        rcases List.mem_cons.mp hx with rfl | hx'
        · exact Or.inl rfl
        · exact Or.inr (List.mem_cons_of_mem _ hx')
      · rw [if_neg h2] at hx
        rcases List.mem_cons.mp hx with rfl | hx'
        · exact Or.inr (List.mem_cons_self _ _)
        · rcases ih hx' with h | h
          · exact Or.inl h
          · exact Or.inr (List.mem_cons_of_mem _ h)

theorem self_mem_insertPostingSorted (p : Posting) (l : List Posting) :
    p ∈ insertPostingSorted p l := by
  induction l with
  | nil => simp [insertPostingSorted]
  | cons q rest ih =>
    rw [insertPostingSorted]
    by_cases h1 : p.docId < q.docId
    · simp [h1]
    · by_cases h2 : p.docId = q.docId
      · simp [h1, h2]
      · simp only [if_neg h1, if_neg h2, List.mem_cons]
        exact Or.inr ih

theorem mem_insertPostingSorted_of_ne {x p : Posting} {l : List Posting} (hx : x ∈ l)
    (hne : x.docId ≠ p.docId) : x ∈ insertPostingSorted p l := by
  induction l with
  | nil => cases hx
  | cons q rest ih =>
    rw [insertPostingSorted]
    rcases List.mem_cons.mp hx with rfl | hx'
    · by_cases h1 : p.docId < x.docId
      · simp [h1]
      · rw [if_neg h1, if_neg (fun h => hne h.symm)]
        exact List.mem_cons_self _ _
    · by_cases h1 : p.docId < q.docId
      · simp only [if_pos h1, List.mem_cons]
        exact Or.inr (Or.inr hx')
      · by_cases h2 : p.docId = q.docId
        · simp only [if_neg h1, if_pos h2, List.mem_cons]
          exact Or.inr hx'
        · simp only [if_neg h1, if_neg h2, List.mem_cons]
          exact Or.inr (ih hx')

theorem pairwise_insertPostingSorted {p : Posting} {l : List Posting}
    (hl : l.Pairwise (fun a b => a.docId < b.docId)) :
    (insertPostingSorted p l).Pairwise (fun a b => a.docId < b.docId) := by
  induction l with
  | nil => simp [insertPostingSorted]
  | cons q rest ih =>
    rw [List.pairwise_cons] at hl
    rw [insertPostingSorted]
    by_cases h1 : p.docId < q.docId
    · rw [if_pos h1, List.pairwise_cons]
      refine ⟨?_, List.pairwise_cons.mpr hl⟩
      intro x hx
      rcases List.mem_cons.mp hx with rfl | hx'
      · exact h1
      · exact h1.trans (hl.1 x hx')
    · by_cases h2 : p.docId = q.docId
      · rw [if_neg h1, if_pos h2, List.pairwise_cons]
        exact ⟨fun x hx => h2 ▸ hl.1 x hx, hl.2⟩
      · rw [if_neg h1, if_neg h2, List.pairwise_cons]
        refine ⟨?_, ih hl.2⟩
        intro x hx
        rcases mem_insertPostingSorted hx with rfl | hx'
        · exact lt_of_le_of_ne (not_lt.mp h1) (fun h => h2 h.symm)
        · exact hl.1 x hx'

theorem tf_insertPostingSorted {p : Posting} {l : List Posting}
    (hp : 1 ≤ p.termFrequency) (hl : ∀ x ∈ l, 1 ≤ x.termFrequency) :
    ∀ x ∈ insertPostingSorted p l, 1 ≤ x.termFrequency := by
  intro x hx
  rcases mem_insertPostingSorted hx with rfl | hx'
  · exact hp
  · exact hl x hx'

/-! ## Term-table insertion lemmas -/

theorem lookupPL_insertPosting_self (pls : List (String × List Posting)) (t : String)
    (p : Posting) : lookupPL (insertPosting pls t p) t = insertPostingSorted p (lookupPL pls t) := by
  induction pls with
  | nil => simp [insertPosting, lookupPL_cons, lookupPL_nil, insertPostingSorted]
  | cons e rest ih =>
    rw [insertPosting]
    by_cases h : e.1 = t
    · rw [if_pos h, lookupPL_cons, lookupPL_cons, if_pos h]
      simp
    · rw [if_neg h, lookupPL_cons, lookupPL_cons, if_neg h, if_neg h]
      exact ih

theorem lookupPL_insertPosting_ne (pls : List (String × List Posting)) {t t' : String}
    (p : Posting) (hne : t' ≠ t) :
    lookupPL (insertPosting pls t p) t' = lookupPL pls t' := by
  induction pls with
  | nil =>
    rw [insertPosting, lookupPL_cons, if_neg (fun h : t = t' => hne h.symm)]
  | cons e rest ih =>
    rw [insertPosting]
    by_cases h : e.1 = t
    · rw [if_pos h, lookupPL_cons, lookupPL_cons, if_neg (fun hh : t = t' => hne hh.symm),
        if_neg (fun hh : e.1 = t' => hne (h ▸ hh).symm)]
    · rw [if_neg h, lookupPL_cons, lookupPL_cons]
      by_cases h2 : e.1 = t'
      · rw [if_pos h2, if_pos h2]
      · rw [if_neg h2, if_neg h2]
        exact ih

theorem keys_insertPosting (pls : List (String × List Posting)) (t : String) (p : Posting) :
    (insertPosting pls t p).map Prod.fst =
      if t ∈ pls.map Prod.fst then pls.map Prod.fst else pls.map Prod.fst ++ [t] := by
  induction pls with
  | nil => simp [insertPosting]
  | cons e rest ih =>
    rw [insertPosting]
    by_cases h : e.1 = t
    · rw [if_pos h]
      simp [h]
    · rw [if_neg h]
      simp only [List.map_cons, List.mem_cons]
      rw [ih]
      by_cases h2 : t ∈ rest.map Prod.fst
      · rw [if_pos h2, if_pos (Or.inr h2)]
      · rw [if_neg h2, if_neg ?_]
        · simp
        · rintro (h3 | h3)
          · exact h (h3.symm)
          · exact h2 h3

theorem keys_insertPosting_nodup {pls : List (String × List Posting)} (t : String) (p : Posting)
    (hk : (pls.map Prod.fst).Nodup) : ((insertPosting pls t p).map Prod.fst).Nodup := by
  rw [keys_insertPosting]
  by_cases h : t ∈ pls.map Prod.fst
  · rwa [if_pos h]
  · rw [if_neg h]
    refine List.Nodup.append hk (List.nodup_singleton t) ?_
    intro a ha hat
    rw [List.mem_singleton] at hat
    exact h (hat ▸ ha)

theorem mem_insertPosting {pls : List (String × List Posting)} {t : String} {p : Posting}
    {e' : String × List Posting} (he : e' ∈ insertPosting pls t p) :
    e' ∈ pls ∨ e'.2 = insertPostingSorted p (lookupPL pls t) := by
  induction pls with
  | nil =>
    simp only [insertPosting, List.mem_singleton] at he
    subst he
    exact Or.inr (by simp [lookupPL_nil, insertPostingSorted])
  | cons e rest ih =>
    rw [insertPosting] at he
    by_cases h : e.1 = t
    · rw [if_pos h] at he
      rcases List.mem_cons.mp he with rfl | he'
      · rw [lookupPL_cons, if_pos h]
        exact Or.inr rfl
      · exact Or.inl (List.mem_cons_of_mem _ he')
    · rw [if_neg h] at he
      rcases List.mem_cons.mp he with rfl | he'
      · exact Or.inl (List.mem_cons_self _ _)
      · rcases ih he' with h1 | h1
        · exact Or.inl (List.mem_cons_of_mem _ h1)
        · rw [lookupPL_cons, if_neg h]
          exact Or.inr h1

theorem insertAll_nil (pls : List (String × List Posting)) : insertAll pls [] = pls := rfl

theorem insertAll_cons (pls : List (String × List Posting)) (it : String × Posting)
    (rest : List (String × Posting)) :
    insertAll pls (it :: rest) = insertAll (insertPosting pls it.1 it.2) rest := rfl

theorem keys_insertAll_nodup {pls : List (String × List Posting)}
    {items : List (String × Posting)} (hk : (pls.map Prod.fst).Nodup) :
    ((insertAll pls items).map Prod.fst).Nodup := by
  induction items generalizing pls with
  | nil => exact hk
  | cons it rest ih =>
    rw [insertAll_cons]
    exact ih (keys_insertPosting_nodup it.1 it.2 hk)

theorem lookupPL_insertAll_of_not_mem {pls : List (String × List Posting)}
    {items : List (String × Posting)} {t : String} (ht : t ∉ items.map Prod.fst) :
    lookupPL (insertAll pls items) t = lookupPL pls t := by
  induction items generalizing pls with
  | nil => rfl
  | cons it rest ih =>
    simp only [List.map_cons, List.mem_cons, not_or] at ht
    rw [insertAll_cons, ih ht.2, lookupPL_insertPosting_ne _ _ ht.1]

theorem lookupPL_insertAll_of_mem {pls : List (String × List Posting)}
    {items : List (String × Posting)} {t : String} {p : Posting}
    (hk : (items.map Prod.fst).Nodup) (hmem : (t, p) ∈ items) :
    lookupPL (insertAll pls items) t = insertPostingSorted p (lookupPL pls t) := by
  induction items generalizing pls with
  | nil => cases hmem
  | cons it rest ih =>
    simp only [List.map_cons, List.nodup_cons] at hk
    rcases List.mem_cons.mp hmem with rfl | hmem'
    · rw [insertAll_cons, lookupPL_insertAll_of_not_mem hk.1,
        lookupPL_insertPosting_self]
    · have hne : t ≠ it.1 := by
        rintro rfl
        exact hk.1 (List.mem_map.mpr ⟨(it.1, p), hmem', rfl⟩)
      rw [insertAll_cons, ih hk.2 hmem', lookupPL_insertPosting_ne _ _ hne]

theorem entries_insertAll {Q : List Posting → Prop} {pls : List (String × List Posting)}
    {items : List (String × Posting)}
    (hstep : ∀ it ∈ items, ∀ l : List Posting, Q l → Q (insertPostingSorted it.2 l))
    (hnil : ∀ it ∈ items, Q (insertPostingSorted it.2 []))
    (hlook : ∀ t, Q (lookupPL pls t) ∨ lookupPL pls t = [])
    (hall : ∀ e ∈ pls, Q e.2) :
    ∀ e ∈ insertAll pls items, Q e.2 := by
  induction items generalizing pls with
  | nil => exact hall
  | cons it rest ih =>
    rw [insertAll_cons]
    refine ih (fun j hj => hstep j (List.mem_cons_of_mem _ hj))
      (fun j hj => hnil j (List.mem_cons_of_mem _ hj)) ?_ ?_
    · intro t
      by_cases h : t = it.1
      · rw [h, lookupPL_insertPosting_self]
        rcases hlook it.1 with hq | hq
        · exact Or.inl (hstep it (List.mem_cons_self _ _) _ hq)
        · rw [hq]
          exact Or.inl (hnil it (List.mem_cons_self _ _))
      · rw [lookupPL_insertPosting_ne _ _ h]
        exact hlook t
    · intro e he
      rcases mem_insertPosting he with h1 | h1
      · exact hall e h1
      · rw [h1]
        rcases hlook it.1 with hq | hq
        · exact hstep it (List.mem_cons_self _ _) _ hq
        · rw [hq]
          exact hnil it (List.mem_cons_self _ _)

/-! ## Posting-removal lemmas -/

theorem fst_pruneEntry (d : Nat) (ts : List String) (e : String × List Posting) :
    (pruneEntry d ts e).1 = e.1 := by
  rw [pruneEntry]
  by_cases h : e.1 ∈ ts <;> simp [h]

theorem snd_pruneEntry (d : Nat) (ts : List String) (e : String × List Posting) :
    (pruneEntry d ts e).2 =
      if e.1 ∈ ts then e.2.filter (fun p => p.docId ≠ d) else e.2 := by
  rw [pruneEntry]
  by_cases h : e.1 ∈ ts <;> simp [h]

theorem removeDocPostings_nil (d : Nat) (ts : List String) :
    removeDocPostings [] d ts = [] := rfl

theorem removeDocPostings_cons (e : String × List Posting)
    (rest : List (String × List Posting)) (d : Nat) (ts : List String) :
    removeDocPostings (e :: rest) d ts =
      if (pruneEntry d ts e).2.isEmpty then removeDocPostings rest d ts
      else pruneEntry d ts e :: removeDocPostings rest d ts := by
  rw [removeDocPostings, List.map_cons, List.filter_cons]
  by_cases h : (pruneEntry d ts e).2.isEmpty <;> simp [h, removeDocPostings]

theorem keys_removeDocPostings_sublist (pls : List (String × List Posting)) (d : Nat)
    (ts : List String) :
    ((removeDocPostings pls d ts).map Prod.fst).Sublist (pls.map Prod.fst) := by
  have h1 : ((removeDocPostings pls d ts).map Prod.fst).Sublist
      ((pls.map (pruneEntry d ts)).map Prod.fst) :=
    List.Sublist.map Prod.fst (List.filter_sublist _)
  have h2 : (pls.map (pruneEntry d ts)).map Prod.fst = pls.map Prod.fst := by
    rw [List.map_map]
    exact List.map_congr_left (fun e _ => fst_pruneEntry d ts e)
  rwa [h2] at h1

theorem keys_removeDocPostings_nodup {pls : List (String × List Posting)} {d : Nat}
    {ts : List String} (hk : (pls.map Prod.fst).Nodup) :
    ((removeDocPostings pls d ts).map Prod.fst).Nodup :=
  List.Nodup.sublist (keys_removeDocPostings_sublist pls d ts) hk

theorem mem_removeDocPostings {pls : List (String × List Posting)} {d : Nat}
    {ts : List String} {e' : String × List Posting}
    (he : e' ∈ removeDocPostings pls d ts) :
    (∃ e ∈ pls, e' = pruneEntry d ts e) ∧ e'.2 ≠ [] := by
  rw [removeDocPostings, List.mem_filter] at he
  rcases he with ⟨hmem, hne⟩
  rcases List.mem_map.mp hmem with ⟨e, he1, he2⟩
  refine ⟨⟨e, he1, he2.symm⟩, ?_⟩
  simpa [List.isEmpty_iff] using hne

theorem lookupPL_removeDocPostings {pls : List (String × List Posting)} {d : Nat}
    {ts : List String} (hk : (pls.map Prod.fst).Nodup) (t : String) :
    lookupPL (removeDocPostings pls d ts) t =
      if t ∈ ts then (lookupPL pls t).filter (fun p => p.docId ≠ d)
      else lookupPL pls t := by
  induction pls with
  | nil =>
    rw [removeDocPostings_nil, lookupPL_nil]
    by_cases h : t ∈ ts <;> simp [h, lookupPL_nil]
  | cons e rest ih =>
    simp only [List.map_cons, List.nodup_cons] at hk
    have hrest := ih hk.2
    rw [removeDocPostings_cons]
    by_cases ht : e.1 = t
    · subst ht
      have hkeys : lookupPL (removeDocPostings rest d ts) e.1 = [] := by
        refine lookupPL_eq_nil_of_not_mem_keys (fun hmem => hk.1 ?_)
        exact (keys_removeDocPostings_sublist rest d ts).mem hmem
      rw [lookupPL_cons, if_pos rfl]
      by_cases hemp : (pruneEntry d ts e).2.isEmpty
      · rw [if_pos hemp, hkeys]
        rw [List.isEmpty_iff, snd_pruneEntry] at hemp
        by_cases hts : e.1 ∈ ts
        · rw [if_pos hts] at hemp ⊢
          exact hemp.symm
        · rw [if_neg hts] at hemp ⊢
          exact hemp.symm
      · rw [if_neg hemp, lookupPL_cons, if_pos (fst_pruneEntry d ts e), snd_pruneEntry]
    · rw [lookupPL_cons, if_neg ht]
      by_cases hemp : (pruneEntry d ts e).2.isEmpty
      · rw [if_pos hemp, hrest]
      · rw [if_neg hemp, lookupPL_cons,
          if_neg (show ¬ (pruneEntry d ts e).1 = t by simpa [fst_pruneEntry] using ht), hrest]

/-! ## Reverse-map lemmas -/

theorem reverseTerms_cons (e : Nat × List String) (rest : List (Nat × List String))
    (d : Nat) : reverseTerms (e :: rest) d = if e.1 = d then e.2 else reverseTerms rest d := by
  by_cases h : e.1 = d
  · simp [reverseTerms, List.find?_cons_of_pos, h]
  · simp only [reverseTerms, h, if_false]
    rw [List.find?_cons_of_neg]
    simp [h]

theorem inReverse_mem_keys {rm : List (Nat × List String)} {d : Nat} {t : String}
    (h : inReverse rm d t) : d ∈ rm.map Prod.fst := by
  rcases h with ⟨e, he, hd, -⟩
  have hm := List.mem_map_of_mem Prod.fst he
  rwa [hd] at hm

theorem inReverse_iff_mem_reverseTerms {rm : List (Nat × List String)}
    (hk : (rm.map Prod.fst).Nodup) (d : Nat) (t : String) :
    inReverse rm d t ↔ t ∈ reverseTerms rm d := by
  induction rm with
  | nil =>
    simp [inReverse, reverseTerms]
  | cons e rest ih =>
    simp only [List.map_cons, List.nodup_cons] at hk
    rw [reverseTerms_cons]
    constructor
    · rintro ⟨f, hf, hfd, hft⟩
      rcases List.mem_cons.mp hf with rfl | hf'
      · rw [if_pos hfd]
        exact hft
      · have hd : d ∈ rest.map Prod.fst := List.mem_map.mpr ⟨f, hf', hfd⟩
        have hne : ¬ e.1 = d := fun he => hk.1 (by rw [he]; exact hd)
        rw [if_neg hne]
        exact (ih hk.2).mp ⟨f, hf', hfd, hft⟩
    · intro ht
      by_cases hd : e.1 = d
      · rw [if_pos hd] at ht
        exact ⟨e, List.mem_cons_self _ _, hd, ht⟩
      · rw [if_neg hd] at ht
        rcases (ih hk.2).mpr ht with ⟨f, hf, hfd, hft⟩
        exact ⟨f, List.mem_cons_of_mem _ hf, hfd, hft⟩

theorem inReverse_filter_ne_self {rm : List (Nat × List String)} {d : Nat} {t : String} :
    ¬ inReverse (rm.filter (fun e => e.1 ≠ d)) d t := by
  rintro ⟨e, he, hd, -⟩
  rw [List.mem_filter] at he
  have hne : ¬ e.1 = d := by simpa using he.2
  exact hne hd

theorem inReverse_filter_ne {rm : List (Nat × List String)} {d d0 : Nat} {t : String}
    (hne : d0 ≠ d) :
    inReverse (rm.filter (fun e => e.1 ≠ d)) d0 t ↔ inReverse rm d0 t := by
  constructor
  · rintro ⟨e, he, hd, ht⟩
    exact ⟨e, (List.mem_filter.mp he).1, hd, ht⟩
  · rintro ⟨e, he, hd, ht⟩
    refine ⟨e, List.mem_filter.mpr ⟨he, by simp [hd, hne]⟩, hd, ht⟩

theorem keys_filter_ne_nodup {rm : List (Nat × List String)} {d : Nat}
    (hk : (rm.map Prod.fst).Nodup) :
    ((rm.filter (fun e => e.1 ≠ d)).map Prod.fst).Nodup :=
  List.Nodup.sublist (List.Sublist.map Prod.fst (List.filter_sublist rm)) hk

/-! ## Document-posting lemmas -/

theorem positionsOf_length_pos {toks : List (String × Nat)} {t : String}
    (ht : t ∈ termsOf toks) : 1 ≤ (positionsOf toks t).length := by
  rw [termsOf, List.mem_dedup] at ht
  rcases List.mem_map.mp ht with ⟨pr, hpr, hfst⟩
  have hmem : pr ∈ toks.filter (fun p => p.1 = t) :=
    List.mem_filter.mpr ⟨hpr, by simp [hfst]⟩
  have hlen : 0 < (toks.filter (fun p => p.1 = t)).length :=
    List.length_pos.mpr (List.ne_nil_of_mem hmem)
  simpa [positionsOf] using hlen

theorem keys_docPostings (d : Nat) (toks : List (String × Nat)) :
    (docPostings d toks).map Prod.fst = termsOf toks := by
  simp [docPostings, List.map_map, Function.comp_def]

theorem keys_docPostings_nodup (d : Nat) (toks : List (String × Nat)) :
    ((docPostings d toks).map Prod.fst).Nodup := by
  rw [keys_docPostings, termsOf]
  exact List.nodup_dedup _

theorem mem_docPostings_self {toks : List (String × Nat)} {t : String} (d : Nat)
    (ht : t ∈ termsOf toks) :
    (t, (⟨d, (positionsOf toks t).length, positionsOf toks t⟩ : Posting)) ∈
      docPostings d toks :=
  List.mem_map_of_mem _ ht

theorem docPostings_spec {d : Nat} {toks : List (String × Nat)} :
    ∀ it ∈ docPostings d toks, it.2.docId = d ∧ 1 ≤ it.2.termFrequency := by
  intro it hit
  rcases List.mem_map.mp hit with ⟨t, ht, rfl⟩
  exact ⟨rfl, positionsOf_length_pos ht⟩

/-! ## Characterizations of the incremental update -/

theorem lookupPL_removeDocument {s : IndexSnapshot} (hk : (s.postingLists.map Prod.fst).Nodup)
    (d : Nat) (t : String) :
    lookupPL (removeDocument s d).postingLists t =
      if t ∈ reverseTerms s.reverseMap d
      then (lookupPL s.postingLists t).filter (fun p => p.docId ≠ d)
      else lookupPL s.postingLists t :=
  lookupPL_removeDocPostings hk t

theorem no_docId_after_removeDocument {s : IndexSnapshot} (hwf : WfSnap s) (d : Nat)
    (t : String) : ¬ ∃ p ∈ lookupPL (removeDocument s d).postingLists t, p.docId = d := by
  rw [lookupPL_removeDocument hwf.keysNodup]
  by_cases ht : t ∈ reverseTerms s.reverseMap d
  · rw [if_pos ht]
    rintro ⟨p, hp, hpd⟩
    have := (List.mem_filter.mp hp).2
    simp only [decide_eq_true_eq] at this
    exact this hpd
  · rw [if_neg ht]
    intro hex
    have hrev : inReverse s.reverseMap d t := (hwf.consistent d t).mpr hex
    exact ht ((inReverse_iff_mem_reverseTerms hwf.rmKeysNodup d t).mp hrev)

theorem lookupPL_applyDocUpdate (s : IndexSnapshot)
    (d : Nat) (text contentHash : String) (now : Nat) (t : String) :
    lookupPL (applyDocUpdate s d text contentHash now).postingLists t =
      if t ∈ termsOf (tokenize text)
      then insertPostingSorted
        ⟨d, (positionsOf (tokenize text) t).length, positionsOf (tokenize text) t⟩
        (lookupPL (removeDocument s d).postingLists t)
      else lookupPL (removeDocument s d).postingLists t := by
  show lookupPL (insertAll (removeDocument s d).postingLists
      (docPostings d (tokenize text))) t = _
  by_cases ht : t ∈ termsOf (tokenize text)
  · rw [if_pos ht]
    exact lookupPL_insertAll_of_mem (keys_docPostings_nodup d (tokenize text))
      (mem_docPostings_self d ht)
  · rw [if_neg ht]
    refine lookupPL_insertAll_of_not_mem ?_
    rwa [keys_docPostings]

theorem mem_filter_docId_ne {l : List Posting} {d d0 : Nat} (hne : d0 ≠ d) :
    (∃ p ∈ l.filter (fun p => p.docId ≠ d), p.docId = d0) ↔ ∃ p ∈ l, p.docId = d0 := by
  constructor
  · rintro ⟨p, hp, hpd⟩
    exact ⟨p, (List.mem_filter.mp hp).1, hpd⟩
  · rintro ⟨p, hp, hpd⟩
    refine ⟨p, List.mem_filter.mpr ⟨hp, ?_⟩, hpd⟩
    simp [hpd, hne]

theorem exists_docId_insertPostingSorted {p : Posting} {l : List Posting} {d0 : Nat}
    (hne : d0 ≠ p.docId) :
    (∃ x ∈ insertPostingSorted p l, x.docId = d0) ↔ ∃ x ∈ l, x.docId = d0 := by
  constructor
  · rintro ⟨x, hx, hxd⟩
    rcases mem_insertPostingSorted hx with rfl | hx'
    · exact absurd hxd hne.symm
    · exact ⟨x, hx', hxd⟩
  · rintro ⟨x, hx, hxd⟩
    refine ⟨x, mem_insertPostingSorted_of_ne hx ?_, hxd⟩
    rw [hxd]
    exact hne

theorem inPostings_applyDocUpdate {s : IndexSnapshot} (hwf : WfSnap s)
    (d : Nat) (text contentHash : String) (now : Nat) (d0 : Nat) (t : String) :
    inPostings (applyDocUpdate s d text contentHash now).postingLists t d0 ↔
      (if d0 = d then t ∈ termsOf (tokenize text) else inPostings s.postingLists t d0) := by
  rw [inPostings, lookupPL_applyDocUpdate s d text contentHash now t]
  by_cases hd0 : d0 = d
  · subst hd0
    rw [if_pos rfl]
    by_cases ht : t ∈ termsOf (tokenize text)
    · rw [if_pos ht]
      simp only [ht, iff_true]
      exact ⟨_, self_mem_insertPostingSorted _ _, rfl⟩
    · rw [if_neg ht]
      simp only [ht, iff_false]
      exact no_docId_after_removeDocument hwf d0 t
  · rw [if_neg hd0]
    have hbase : (∃ p ∈ lookupPL (removeDocument s d).postingLists t, p.docId = d0) ↔
        inPostings s.postingLists t d0 := by
      rw [lookupPL_removeDocument hwf.keysNodup, inPostings]
      by_cases hts : t ∈ reverseTerms s.reverseMap d
      · rw [if_pos hts]
        exact mem_filter_docId_ne hd0
      · rw [if_neg hts]
    by_cases ht : t ∈ termsOf (tokenize text)
    · rw [if_pos ht, exists_docId_insertPostingSorted hd0]
      exact hbase
    · rw [if_neg ht]
      exact hbase

theorem inReverse_applyDocUpdate {s : IndexSnapshot}
    (d : Nat) (text contentHash : String) (now : Nat) (d0 : Nat) (t : String) :
    inReverse (applyDocUpdate s d text contentHash now).reverseMap d0 t ↔
      (if d0 = d then t ∈ termsOf (tokenize text) else inReverse s.reverseMap d0 t) := by
  show inReverse (setReverse (removeDocument s d).reverseMap d (termsOf (tokenize text))) d0 t ↔ _
  rw [setReverse]
  by_cases hd0 : d0 = d
  · subst hd0
    rw [if_pos rfl]
    constructor
    · rintro ⟨e, he, hed, het⟩
      rcases List.mem_cons.mp he with rfl | he'
      · exact het
      · rw [List.mem_filter] at he'
        exact absurd hed (by simpa using he'.2)
    · intro ht
      exact ⟨_, List.mem_cons_self _ _, rfl, ht⟩
  · rw [if_neg hd0]
    constructor
    · rintro ⟨e, he, hed, het⟩
      rcases List.mem_cons.mp he with rfl | he'
      · exact absurd hed.symm (by simpa using hd0)
      · have he2 := (List.mem_filter.mp he').1
        show inReverse s.reverseMap d0 t
        have := (@inReverse_filter_ne s.reverseMap d d0 t hd0).mp ⟨e, he2, hed, het⟩
        exact this
    · intro hrev
      rcases (@inReverse_filter_ne s.reverseMap d d0 t hd0).mpr hrev with ⟨e, he, hed, het⟩
      refine ⟨e, List.mem_cons_of_mem _ (List.mem_filter.mpr ⟨he, ?_⟩), hed, het⟩
      have : ¬ e.1 = d := by
        rw [hed]
        exact hd0
      rcases List.mem_filter.mp he with ⟨-, hne⟩
      exact hne

/-! ## Preservation of the invariant -/

theorem entries_removeDocument {s : IndexSnapshot} (hwf : WfSnap s) (d : Nat) :
    ∀ e ∈ (removeDocument s d).postingLists,
      e.2.Pairwise (fun a b => a.docId < b.docId) ∧ e.2 ≠ [] ∧
        ∀ x ∈ e.2, 1 ≤ x.termFrequency := by
  intro e he
  rcases mem_removeDocPostings he with ⟨⟨e0, he0, rfl⟩, hne⟩
  rw [snd_pruneEntry] at hne ⊢
  by_cases hts : e0.1 ∈ reverseTerms s.reverseMap d
  · rw [if_pos hts] at hne ⊢
    refine ⟨List.Pairwise.sublist (List.filter_sublist _) (hwf.sortedPL e0 he0), hne, ?_⟩
    intro x hx
    exact hwf.tfPos e0 he0 x (List.mem_filter.mp hx).1
  · rw [if_neg hts] at hne ⊢
    exact ⟨hwf.sortedPL e0 he0, hne, hwf.tfPos e0 he0⟩

theorem inPostings_removeDocument {s : IndexSnapshot} (hwf : WfSnap s) {d d0 : Nat}
    (t : String) (hne : d0 ≠ d) :
    inPostings (removeDocument s d).postingLists t d0 ↔ inPostings s.postingLists t d0 := by
  rw [inPostings, lookupPL_removeDocument hwf.keysNodup, inPostings]
  by_cases hts : t ∈ reverseTerms s.reverseMap d
  · rw [if_pos hts]
    exact mem_filter_docId_ne hne
  · rw [if_neg hts]

theorem entries_applyDocUpdate {s : IndexSnapshot} (hwf : WfSnap s) (d : Nat)
    (text contentHash : String) (now : Nat) :
    ∀ e ∈ (applyDocUpdate s d text contentHash now).postingLists,
      e.2.Pairwise (fun a b => a.docId < b.docId) ∧ e.2 ≠ [] ∧
        ∀ x ∈ e.2, 1 ≤ x.termFrequency := by
  have hall := entries_removeDocument hwf d
  have hstep : ∀ it ∈ docPostings d (tokenize text), ∀ l : List Posting,
      (l.Pairwise (fun a b => a.docId < b.docId) ∧ l ≠ [] ∧ ∀ x ∈ l, 1 ≤ x.termFrequency) →
      ((insertPostingSorted it.2 l).Pairwise (fun a b => a.docId < b.docId) ∧
        insertPostingSorted it.2 l ≠ [] ∧
        ∀ x ∈ insertPostingSorted it.2 l, 1 ≤ x.termFrequency) := by
    intro it hit l hQ
    rcases docPostings_spec it hit with ⟨-, htf⟩
    exact ⟨pairwise_insertPostingSorted hQ.1, insertPostingSorted_ne_nil _ _,
      tf_insertPostingSorted htf hQ.2.2⟩
  have hnil : ∀ it ∈ docPostings d (tokenize text),
      ((insertPostingSorted it.2 []).Pairwise (fun a b => a.docId < b.docId) ∧
        insertPostingSorted it.2 [] ≠ [] ∧
        ∀ x ∈ insertPostingSorted it.2 [], 1 ≤ x.termFrequency) := by
    intro it hit
    rcases docPostings_spec it hit with ⟨-, htf⟩
    refine ⟨pairwise_insertPostingSorted List.Pairwise.nil, insertPostingSorted_ne_nil _ _,
      tf_insertPostingSorted htf ?_⟩
    intro x hx
    cases hx
  have hlook : ∀ t, (((lookupPL (removeDocument s d).postingLists t).Pairwise
        (fun a b => a.docId < b.docId) ∧ lookupPL (removeDocument s d).postingLists t ≠ [] ∧
        ∀ x ∈ lookupPL (removeDocument s d).postingLists t, 1 ≤ x.termFrequency) ∨
      lookupPL (removeDocument s d).postingLists t = []) := by
    intro t
    rcases lookupPL_mem_or_nil (removeDocument s d).postingLists t with h | h
    · exact Or.inr h
    · exact Or.inl (hall _ h)
  exact @entries_insertAll
    (fun l => l.Pairwise (fun a b => a.docId < b.docId) ∧ l ≠ [] ∧
      ∀ x ∈ l, 1 ≤ x.termFrequency) _ _ hstep hnil hlook hall

theorem wf_applyDocUpdate {s : IndexSnapshot} (hwf : WfSnap s) (d : Nat)
    (text contentHash : String) (now : Nat) :
    WfSnap (applyDocUpdate s d text contentHash now) := by
  have hent := entries_applyDocUpdate hwf d text contentHash now
  refine ⟨?_, fun e he => (hent e he).1, fun e he => (hent e he).2.1,
    fun e he => (hent e he).2.2, ?_, ?_, ?_, ?_⟩
  · show ((insertAll (removeDocument s d).postingLists
      (docPostings d (tokenize text))).map Prod.fst).Nodup
    exact keys_insertAll_nodup (keys_removeDocPostings_nodup hwf.keysNodup)
  · show ((setReverse (removeDocument s d).reverseMap d (termsOf (tokenize text))).map
      Prod.fst).Nodup
    rw [setReverse]
    refine List.nodup_cons.mpr ⟨?_, ?_⟩
    · intro hmem
      rcases List.mem_map.mp hmem with ⟨e, he, hfst⟩
      have hne : ¬ e.1 = d := by simpa using (List.mem_filter.mp he).2
      exact hne hfst
    · exact keys_filter_ne_nodup (keys_filter_ne_nodup hwf.rmKeysNodup)
  · show ((setDocument (removeDocument s d).documents
      ⟨d, contentHash, text.length, now⟩).map DocInfo.docId).Nodup
    rw [setDocument]
    refine List.nodup_cons.mpr ⟨?_, ?_⟩
    · intro hmem
      rcases List.mem_map.mp hmem with ⟨i, hi, hid⟩
      have hne : ¬ i.docId = d := by simpa using (List.mem_filter.mp hi).2
      exact hne hid
    · exact List.Nodup.sublist (List.Sublist.map DocInfo.docId (List.filter_sublist _))
        hwf.docsNodup
  · intro e he
    rw [show (applyDocUpdate s d text contentHash now).reverseMap =
        setReverse (removeDocument s d).reverseMap d (termsOf (tokenize text)) from rfl,
      setReverse] at he
    rcases List.mem_cons.mp he with rfl | he'
    · exact ⟨⟨d, contentHash, text.length, now⟩, List.mem_cons_self _ _, rfl⟩
    · have he2 := (List.mem_filter.mp he').1
      have hneq : ¬ e.1 = d := by simpa using (List.mem_filter.mp he').2
      have he3 := (List.mem_filter.mp he2).1
      rcases hwf.rmDocs e he3 with ⟨i, hi, hid⟩
      refine ⟨i, ?_, hid⟩
      show i ∈ setDocument (removeDocument s d).documents ⟨d, contentHash, text.length, now⟩
      rw [setDocument]
      refine List.mem_cons_of_mem _ (List.mem_filter.mpr ⟨hi, ?_⟩)
      simp only [decide_eq_true_eq]
      show ¬ i.docId = d
      rw [hid]
      exact hneq
  · intro d0 t
    rw [inReverse_applyDocUpdate, inPostings_applyDocUpdate hwf]
    by_cases hd0 : d0 = d
    · rw [if_pos hd0, if_pos hd0]
    · rw [if_neg hd0, if_neg hd0]
      exact hwf.consistent d0 t

/-! ## Unfolding equations for the fallible operations -/

theorem indexTextIncremental_of_none {s : IndexSnapshot} {d : Nat}
    (text contentHash : String) (now : Nat) (h : findDoc s.documents d = none) :
    indexTextIncremental s d text contentHash now =
      (applyDocUpdate s d text contentHash now,
        ⟨true, (termsOf (tokenize text)).length⟩) := by
  rw [indexTextIncremental, h]

theorem indexTextIncremental_of_some_eq {s : IndexSnapshot} {d : Nat} {info : DocInfo}
    (text : String) {contentHash : String} (now : Nat)
    (h : findDoc s.documents d = some info) (hh : info.contentHash = contentHash) :
    indexTextIncremental s d text contentHash now = (s, ⟨false, 0⟩) := by
  rw [indexTextIncremental, h]
  simp only [hh, if_true]

theorem indexTextIncremental_of_some_ne {s : IndexSnapshot} {d : Nat} {info : DocInfo}
    (text : String) {contentHash : String} (now : Nat)
    (h : findDoc s.documents d = some info) (hh : ¬ info.contentHash = contentHash) :
    indexTextIncremental s d text contentHash now =
      (applyDocUpdate s d text contentHash now,
        ⟨true, (termsOf (tokenize text)).length⟩) := by
  rw [indexTextIncremental, h]
  simp only [hh, if_false]

theorem removeIndexedDoc_of_none {s : IndexSnapshot} {d : Nat}
    (h : findDoc s.documents d = none) : removeIndexedDoc s d = (s, ⟨false⟩) := by
  rw [removeIndexedDoc, h]

theorem removeIndexedDoc_of_some {s : IndexSnapshot} {d : Nat} {info : DocInfo}
    (h : findDoc s.documents d = some info) :
    removeIndexedDoc s d =
      ({ removeDocument s d with
          documents := s.documents.filter (fun e => e.docId ≠ d),
          generation := s.generation + 1 }, ⟨true⟩) := by
  rw [removeIndexedDoc, h]

theorem stepManager_clearOp (st : ManagerState) (writeOk : Bool) :
    stepManager st .clearOp writeOk =
      (⟨clearIndexSnap st.snap, persistSnapshot st.disk (clearIndexSnap st.snap) writeOk⟩,
        ⟨.cleared, !writeOk⟩) := rfl

theorem stepManager_incrOp (st : ManagerState) (d : Nat) (text contentHash : String)
    (now : Nat) (writeOk : Bool) :
    stepManager st (.incrOp d text contentHash now) writeOk =
      if (indexTextIncremental st.snap d text contentHash now).2.updated
      then (⟨(indexTextIncremental st.snap d text contentHash now).1,
          persistSnapshot st.disk (indexTextIncremental st.snap d text contentHash now).1
            writeOk⟩,
        ⟨.updateRes (indexTextIncremental st.snap d text contentHash now).2, !writeOk⟩)
      else (st, ⟨.updateRes (indexTextIncremental st.snap d text contentHash now).2,
        false⟩) := rfl

theorem stepManager_removeOp (st : ManagerState) (d : Nat) (writeOk : Bool) :
    stepManager st (.removeOp d) writeOk =
      if (removeIndexedDoc st.snap d).2.removed
      then (⟨(removeIndexedDoc st.snap d).1,
          persistSnapshot st.disk (removeIndexedDoc st.snap d).1 writeOk⟩,
        ⟨.removeRes (removeIndexedDoc st.snap d).2, !writeOk⟩)
      else (st, ⟨.removeRes (removeIndexedDoc st.snap d).2, false⟩) := rfl

theorem wf_removeIndexedDoc {s : IndexSnapshot} (hwf : WfSnap s) (d : Nat) :
    WfSnap (removeIndexedDoc s d).1 := by
  cases hfind : findDoc s.documents d with
  | none =>
    rw [removeIndexedDoc_of_none hfind]
    exact hwf
  | some info =>
    rw [removeIndexedDoc_of_some hfind]
    have hent := entries_removeDocument hwf d
    refine ⟨?_, fun e he => (hent e he).1, fun e he => (hent e he).2.1,
      fun e he => (hent e he).2.2, ?_, ?_, ?_, ?_⟩
    · exact keys_removeDocPostings_nodup hwf.keysNodup
    · exact keys_filter_ne_nodup hwf.rmKeysNodup
    · exact List.Nodup.sublist (List.Sublist.map DocInfo.docId (List.filter_sublist _))
        hwf.docsNodup
    · intro e he
      have he1 := (List.mem_filter.mp he).1
      have hneq : ¬ e.1 = d := by simpa using (List.mem_filter.mp he).2
      rcases hwf.rmDocs e he1 with ⟨i, hi, hid⟩
      refine ⟨i, List.mem_filter.mpr ⟨hi, ?_⟩, hid⟩
      simp only [decide_eq_true_eq]
      show ¬ i.docId = d
      rw [hid]
      exact hneq
    · intro d0 t
      show inReverse (s.reverseMap.filter (fun e => e.1 ≠ d)) d0 t ↔
        inPostings (removeDocPostings s.postingLists d (reverseTerms s.reverseMap d)) t d0
      by_cases hd0 : d0 = d
      · subst hd0
        constructor
        · intro h
          exact absurd h inReverse_filter_ne_self
        · intro h
          exact absurd h (no_docId_after_removeDocument hwf d0 t)
      · rw [inReverse_filter_ne hd0]
        rw [show inPostings (removeDocPostings s.postingLists d
            (reverseTerms s.reverseMap d)) t d0 ↔
            inPostings s.postingLists t d0 from inPostings_removeDocument hwf t hd0]
        exact hwf.consistent d0 t

theorem wf_emptySnapshot (gen : Nat) : WfSnap (emptySnapshot gen) := by
  refine ⟨?_, ?_, ?_, ?_, ?_, ?_, ?_, ?_⟩ <;>
    simp [emptySnapshot, inReverse, inPostings, lookupPL_nil]

theorem wf_indexTextIncremental {s : IndexSnapshot} (hwf : WfSnap s) (d : Nat)
    (text contentHash : String) (now : Nat) :
    WfSnap (indexTextIncremental s d text contentHash now).1 := by
  cases hfind : findDoc s.documents d with
  | none =>
    rw [indexTextIncremental_of_none text contentHash now hfind]
    exact wf_applyDocUpdate hwf d text contentHash now
  | some info =>
    by_cases hh : info.contentHash = contentHash
    · rw [indexTextIncremental_of_some_eq text now hfind hh]
      exact hwf
    · rw [indexTextIncremental_of_some_ne text now hfind hh]
      exact wf_applyDocUpdate hwf d text contentHash now

/-! ## The manager invariant along reachable states -/

theorem diskGeneration_serialize (s : IndexSnapshot) :
    diskGeneration (some (serializeSnapshot s)) = s.generation := rfl

theorem diskGeneration_persist_mono (disk : Option SnapshotFile) (s : IndexSnapshot)
    (writeOk : Bool) : diskGeneration disk ≤ diskGeneration (persistSnapshot disk s writeOk) := by
  rw [persistSnapshot]
  by_cases hok : writeOk = true
  · rw [if_pos hok]
    by_cases hle : diskGeneration disk ≤ s.generation
    · rw [if_pos hle, diskGeneration_serialize]
      exact hle
    · rw [if_neg hle]
  · rw [if_neg hok]

theorem diskGeneration_persist_le {disk : Option SnapshotFile} {s : IndexSnapshot}
    (writeOk : Bool) (h : diskGeneration disk ≤ s.generation) :
    diskGeneration (persistSnapshot disk s writeOk) ≤ s.generation := by
  rw [persistSnapshot]
  by_cases hok : writeOk = true
  · rw [if_pos hok, if_pos h, diskGeneration_serialize]
  · rw [if_neg hok]
    exact h

/-- The invariant the manager maintains: the published snapshot is
well-formed and the disk never runs ahead of the published generation. -/
def ManagerInv (st : ManagerState) : Prop :=
  WfSnap st.snap ∧ diskGeneration st.disk ≤ st.snap.generation

theorem generation_indexTextIncremental (s : IndexSnapshot) (d : Nat)
    (text contentHash : String) (now : Nat) :
    (indexTextIncremental s d text contentHash now).1.generation = s.generation ∨
      (indexTextIncremental s d text contentHash now).1.generation = s.generation + 1 := by
  cases hfind : findDoc s.documents d with
  | none =>
    rw [indexTextIncremental_of_none text contentHash now hfind]
    exact Or.inr rfl
  | some info =>
    by_cases hh : info.contentHash = contentHash
    · rw [indexTextIncremental_of_some_eq text now hfind hh]
      exact Or.inl rfl
    · rw [indexTextIncremental_of_some_ne text now hfind hh]
      exact Or.inr rfl

theorem managerInv_step {st : ManagerState} (hinv : ManagerInv st) (op : StepOp)
    (writeOk : Bool) : ManagerInv (stepManager st op writeOk).1 := by
  rcases hinv with ⟨hwf, hdisk⟩
  cases op with
  | clearOp =>
    refine ⟨wf_emptySnapshot _, ?_⟩
    exact diskGeneration_persist_le writeOk (hdisk.trans (Nat.le_succ _))
  | incrOp d text h now =>
    rw [stepManager_incrOp]
    by_cases hupd : (indexTextIncremental st.snap d text h now).2.updated
    · rw [if_pos hupd]
      refine ⟨wf_indexTextIncremental hwf d text h now, ?_⟩
      refine diskGeneration_persist_le writeOk ?_
      rcases generation_indexTextIncremental st.snap d text h now with hg | hg
      · rw [hg]
        exact hdisk
      · rw [hg]
        exact hdisk.trans (Nat.le_succ _)
    · rw [if_neg hupd]
      exact ⟨hwf, hdisk⟩
  | removeOp d =>
    rw [stepManager_removeOp]
    by_cases hrem : (removeIndexedDoc st.snap d).2.removed
    · rw [if_pos hrem]
      refine ⟨wf_removeIndexedDoc hwf d, ?_⟩
      refine diskGeneration_persist_le writeOk ?_
      cases hfind : findDoc st.snap.documents d with
      | none =>
        rw [removeIndexedDoc_of_none hfind]
        exact hdisk
      | some info =>
        rw [removeIndexedDoc_of_some hfind]
        exact hdisk.trans (Nat.le_succ _)
    · rw [if_neg hrem]
      exact ⟨hwf, hdisk⟩

theorem managerInv_reachable {st : ManagerState} (h : Reachable st) : ManagerInv st := by
  induction h with
  | created writeOk =>
    refine ⟨wf_emptySnapshot 0, ?_⟩
    exact diskGeneration_persist_le writeOk (Nat.le_refl 0)
  | step op writeOk _ ih => exact managerInv_step ih op writeOk

/-! ## Ranking-order lemmas -/

theorem hitLE_total (a b : SearchHit) : (hitLE a b || hitLE b a) = true := by
  rw [hitLE, hitLE]
  simp only [Bool.or_eq_true, decide_eq_true_eq]
  rcases lt_trichotomy a.scoreOf b.scoreOf with hs | hs | hs
  · exact Or.inr (Or.inl hs)
  · rcases lt_trichotomy a.lastIndexedAt b.lastIndexedAt with hl | hl | hl
    · exact Or.inr (Or.inr ⟨hs.symm, Or.inl hl⟩)
    · rcases Nat.le_total a.docId b.docId with hd | hd
      · exact Or.inl (Or.inr ⟨hs, Or.inr ⟨hl, hd⟩⟩)
      · exact Or.inr (Or.inr ⟨hs.symm, Or.inr ⟨hl.symm, hd⟩⟩)
    · exact Or.inl (Or.inr ⟨hs, Or.inl hl⟩)
  · exact Or.inl (Or.inl hs)

theorem hitLE_trans (a b c : SearchHit) (hab : hitLE a b = true) (hbc : hitLE b c = true) :
    hitLE a c = true := by
  rw [hitLE] at hab hbc ⊢
  simp only [decide_eq_true_eq] at hab hbc ⊢
  rcases hab with hab | ⟨habs, hab⟩
  · rcases hbc with hbc | ⟨hbcs, hbc⟩
    · exact Or.inl (hbc.trans hab)
    · exact Or.inl (hbcs ▸ hab)
  · rcases hbc with hbc | ⟨hbcs, hbc⟩
    · exact Or.inl (habs ▸ hbc)
    · refine Or.inr ⟨habs.trans hbcs, ?_⟩
      rcases hab with hab | ⟨habl, hab⟩
      · rcases hbc with hbc | ⟨hbcl, hbc⟩
        · exact Or.inl (hbc.trans hab)
        · exact Or.inl (hbcl ▸ hab)
      · rcases hbc with hbc | ⟨hbcl, hbc⟩
        · exact Or.inl (habl ▸ hbc)
        · exact Or.inr ⟨habl.trans hbcl, hab.trans hbc⟩

theorem rankHits_perm (hs : List SearchHit) : (rankHits hs).Perm hs :=
  List.mergeSort_perm hs hitLE

theorem rankHits_sorted (hs : List SearchHit) :
    (rankHits hs).Pairwise (fun a b => hitLE a b = true) :=
  List.sorted_mergeSort (fun a b c => hitLE_trans a b c) hitLE_total hs

/-- The strict ranking order on two hits with distinct document ids. -/
theorem hitLE_strict {a b : SearchHit} (hle : hitLE a b = true) (hne : a.docId ≠ b.docId) :
    b.scoreOf < a.scoreOf ∨ (a.scoreOf = b.scoreOf ∧ (b.lastIndexedAt < a.lastIndexedAt ∨
      (a.lastIndexedAt = b.lastIndexedAt ∧ a.docId < b.docId))) := by
  rw [hitLE] at hle
  simp only [decide_eq_true_eq] at hle
  rcases hle with h | ⟨hs, h | ⟨hl, hd⟩⟩
  · exact Or.inl h
  · exact Or.inr ⟨hs, Or.inl h⟩
  · exact Or.inr ⟨hs, Or.inr ⟨hl, lt_of_le_of_ne hd hne⟩⟩

/-! ## Score positivity and the closed-form sum -/

theorem scoreKey_pos (docs : List DocInfo) (pls : List (String × List Posting))
    (ts : List String) (d : Nat) (hN : 1 ≤ docs.length) : 0 < scoreKey docs pls ts d := by
  rw [scoreKey]
  apply List.prod_pos
  intro x hx
  rcases List.mem_map.mp hx with ⟨t, -, rfl⟩
  apply pow_pos
  apply div_pos
  · exact_mod_cast Nat.lt_of_lt_of_le Nat.zero_lt_one hN
  · positivity

theorem docs_nonempty_of_candidate {s : IndexSnapshot} (hwf : WfSnap s) {ts : List String}
    {d : Nat} (hd : d ∈ candidateIds s.postingLists ts) : 1 ≤ s.documents.length := by
  rw [candidateIds, List.mem_dedup] at hd
  rcases List.mem_flatMap.mp hd with ⟨t, -, hmem⟩
  rcases List.mem_map.mp hmem with ⟨p, hp, rfl⟩
  have hin : inPostings s.postingLists t p.docId := ⟨p, hp, rfl⟩
  rcases (hwf.consistent p.docId t).mpr hin with ⟨e, he, -, -⟩
  rcases hwf.rmDocs e he with ⟨i, hi, -⟩
  exact Nat.one_le_iff_ne_zero.mpr
    (fun hz => (List.ne_nil_of_mem hi) (List.length_eq_zero.mp hz))

theorem ratCast_list_prod (l : List ℚ) :
    ((l.prod : ℚ) : ℝ) = (l.map (fun x : ℚ => (x : ℝ))).prod := by
  induction l with
  | nil => simp
  | cons x rest ih => simp [List.prod_cons, ih]

theorem log_list_prod (l : List ℝ) (hl : ∀ x ∈ l, 0 < x) :
    Real.log l.prod = (l.map Real.log).sum := by
  induction l with
  | nil => simp
  | cons x rest ih =>
    have hx : (0:ℝ) < x := hl x (List.mem_cons_self _ _)
    have hrest : ∀ y ∈ rest, (0:ℝ) < y := fun y hy => hl y (List.mem_cons_of_mem _ hy)
    have hprod : (0:ℝ) < rest.prod := List.prod_pos hrest
    rw [List.prod_cons, List.map_cons, List.sum_cons,
      Real.log_mul (ne_of_gt hx) (ne_of_gt hprod), ih hrest]

theorem tfidfScore_eq_sum (docs : List DocInfo) (pls : List (String × List Posting))
    (ts : List String) (d : Nat) (hN : 1 ≤ docs.length) :
    tfidfScore docs pls ts d =
      (ts.map (fun t => (termFreqInDoc pls t d : ℝ) *
        Real.log ((docs.length : ℝ) / (1 + docFreq pls t)))).sum := by
  have hbase : ∀ t : String, (0:ℝ) < (docs.length : ℝ) / (1 + docFreq pls t) := by
    intro t
    apply div_pos
    · exact_mod_cast Nat.lt_of_lt_of_le Nat.zero_lt_one hN
    · positivity
  rw [tfidfScore, scoreKey, ratCast_list_prod, List.map_map]
  have hcast : ∀ t ∈ ts,
      ((fun x : ℚ => (x : ℝ)) ∘ fun t =>
        ((docs.length : ℚ) / (1 + docFreq pls t)) ^ termFreqInDoc pls t d) t =
      ((docs.length : ℝ) / (1 + docFreq pls t)) ^ termFreqInDoc pls t d := by
    intro t _
    simp only [Function.comp_apply]
    push_cast
    ring
  rw [List.map_congr_left hcast]
  rw [log_list_prod _ ?_]
  · rw [List.map_map]
    refine congrArg List.sum (List.map_congr_left ?_)
    intro t _
    simp only [Function.comp_apply]
    rw [Real.log_pow]
  · intro x hx
    rcases List.mem_map.mp hx with ⟨t, -, rfl⟩
    exact pow_pos (hbase t) _

/-! ## Search-pipeline lemmas -/

theorem searchAll_eq (docs : List DocInfo) (pls : List (String × List Posting)) (q : String) :
    searchAll docs pls q = rankHits ((candidateIds pls (queryTerms q)).map
      (fun d => ⟨d, scoreKey docs pls (queryTerms q) d, lastIndexedOf docs d⟩)) := rfl

theorem mem_searchAll {docs : List DocInfo} {pls : List (String × List Posting)} {q : String}
    {h : SearchHit} (hh : h ∈ searchAll docs pls q) :
    h.docId ∈ candidateIds pls (queryTerms q) ∧
      h.scoreOf = scoreKey docs pls (queryTerms q) h.docId ∧
      h.lastIndexedAt = lastIndexedOf docs h.docId := by
  rw [searchAll_eq] at hh
  have hmem := (rankHits_perm _).mem_iff.mp hh
  rcases List.mem_map.mp hmem with ⟨d, hd, rfl⟩
  exact ⟨hd, rfl, rfl⟩

theorem docIds_searchAll_nodup (docs : List DocInfo) (pls : List (String × List Posting))
    (q : String) : ((searchAll docs pls q).map SearchHit.docId).Nodup := by
  rw [searchAll_eq]
  have hperm : ((rankHits ((candidateIds pls (queryTerms q)).map
      (fun d => (⟨d, scoreKey docs pls (queryTerms q) d,
        lastIndexedOf docs d⟩ : SearchHit)))).map SearchHit.docId).Perm
      (((candidateIds pls (queryTerms q)).map
        (fun d => (⟨d, scoreKey docs pls (queryTerms q) d,
          lastIndexedOf docs d⟩ : SearchHit))).map SearchHit.docId) :=
    (rankHits_perm _).map _
  have heq : ((candidateIds pls (queryTerms q)).map
      (fun d => (⟨d, scoreKey docs pls (queryTerms q) d,
        lastIndexedOf docs d⟩ : SearchHit))).map SearchHit.docId =
      candidateIds pls (queryTerms q) := by
    rw [List.map_map]
    exact List.map_id _
  refine (hperm.nodup_iff).mpr ?_
  rw [heq, candidateIds]
  exact List.nodup_dedup _

theorem searchAll_pairwise (docs : List DocInfo) (pls : List (String × List Posting))
    (q : String) :
    (searchAll docs pls q).Pairwise (fun a b => b.scoreOf < a.scoreOf ∨
      (a.scoreOf = b.scoreOf ∧ (b.lastIndexedAt < a.lastIndexedAt ∨
        (a.lastIndexedAt = b.lastIndexedAt ∧ a.docId < b.docId)))) := by
  have hsort : (searchAll docs pls q).Pairwise (fun a b => hitLE a b = true) := by
    rw [searchAll_eq]
    exact rankHits_sorted _
  have hne : (searchAll docs pls q).Pairwise (fun a b => a.docId ≠ b.docId) :=
    List.pairwise_map.mp (docIds_searchAll_nodup docs pls q)
  exact (hsort.and hne).imp (fun hab => hitLE_strict hab.1 hab.2)

theorem scoreOf_searchAll_pos {s : IndexSnapshot} (hwf : WfSnap s) {q : String}
    {h : SearchHit} (hh : h ∈ searchAll s.documents s.postingLists q) : 0 < h.scoreOf := by
  rcases mem_searchAll hh with ⟨hcand, hsc, -⟩
  rw [hsc]
  exact scoreKey_pos _ _ _ _ (docs_nonempty_of_candidate hwf hcand)

theorem log_lt_log_iff_of_key {x y : ℚ} (hx : 0 < x) (hy : 0 < y) :
    y < x ↔ Real.log (y : ℝ) < Real.log (x : ℝ) := by
  have hx' : (0:ℝ) < x := by exact_mod_cast hx
  have hy' : (0:ℝ) < y := by exact_mod_cast hy
  rw [Real.log_lt_log_iff hy' hx']
  exact_mod_cast Iff.rfl

theorem log_eq_log_iff_of_key {x y : ℚ} (hx : 0 < x) (hy : 0 < y) :
    x = y ↔ Real.log (x : ℝ) = Real.log (y : ℝ) := by
  have hx' : (0:ℝ) < x := by exact_mod_cast hx
  have hy' : (0:ℝ) < y := by exact_mod_cast hy
  constructor
  · intro h
    rw [h]
  · intro h
    exact_mod_cast Real.log_injOn_pos (Set.mem_Ioi.mpr hx') (Set.mem_Ioi.mpr hy') h

/-! ## The write-then-read path -/

theorem lookupPL_applyDocUpdate_unique {s : IndexSnapshot} (hwf : WfSnap s) {d : Nat}
    {text t : String} (contentHash : String) (now : Nat)
    (ht : t ∈ termsOf (tokenize text))
    (huniq : ∀ p ∈ lookupPL s.postingLists t, p.docId = d) :
    lookupPL (applyDocUpdate s d text contentHash now).postingLists t =
      [⟨d, (positionsOf (tokenize text) t).length, positionsOf (tokenize text) t⟩] := by
  rw [lookupPL_applyDocUpdate, if_pos ht]
  have hbase : lookupPL (removeDocument s d).postingLists t = [] := by
    rw [lookupPL_removeDocument hwf.keysNodup]
    by_cases hts : t ∈ reverseTerms s.reverseMap d
    · rw [if_pos hts]
      rw [List.filter_eq_nil_iff]
      intro p hp
      simp [huniq p hp]
    · rw [if_neg hts]
      cases hlk : lookupPL s.postingLists t with
      | nil => rfl
      | cons p rest =>
        exfalso
        have hpd : p.docId = d := huniq p (by rw [hlk]; exact List.mem_cons_self _ _)
        have hin : inPostings s.postingLists t d :=
          ⟨p, by rw [hlk]; exact List.mem_cons_self _ _, hpd⟩
        have hrev := (hwf.consistent d t).mpr hin
        exact hts ((inReverse_iff_mem_reverseTerms hwf.rmKeysNodup d t).mp hrev)
  rw [hbase, insertPostingSorted]

theorem search_after_update {s : IndexSnapshot} (hwf : WfSnap s) {d : Nat}
    {text q t : String} (contentHash : String) (now : Nat) {lim : Nat}
    (hq : queryTerms q = [t]) (ht : t ∈ termsOf (tokenize text))
    (huniq : ∀ p ∈ lookupPL s.postingLists t, p.docId = d) (hlim : 1 ≤ lim) :
    (searchIndexSnap (applyDocUpdate s d text contentHash now) q lim 0).map
      SearchHit.docId = [d] := by
  have hlk := lookupPL_applyDocUpdate_unique hwf contentHash now ht huniq
  have hcand : candidateIds (applyDocUpdate s d text contentHash now).postingLists
      (queryTerms q) = [d] := by
    rw [hq, candidateIds]
    simp [hlk]
  rw [searchIndexSnap, searchAll_eq, hcand]
  have hrank := List.perm_singleton.mp (rankHits_perm
    ([d].map (fun d0 => (⟨d0, scoreKey (applyDocUpdate s d text contentHash now).documents
      (applyDocUpdate s d text contentHash now).postingLists (queryTerms q) d0,
      lastIndexedOf (applyDocUpdate s d text contentHash now).documents d0⟩ : SearchHit))))
  rw [show rankHits ([d].map (fun d0 => (⟨d0,
      scoreKey (applyDocUpdate s d text contentHash now).documents
        (applyDocUpdate s d text contentHash now).postingLists (queryTerms q) d0,
      lastIndexedOf (applyDocUpdate s d text contentHash now).documents d0⟩ : SearchHit))) =
      [d].map (fun d0 => (⟨d0, scoreKey (applyDocUpdate s d text contentHash now).documents
        (applyDocUpdate s d text contentHash now).postingLists (queryTerms q) d0,
      lastIndexedOf (applyDocUpdate s d text contentHash now).documents d0⟩ : SearchHit))
    from by simpa using hrank]
  cases lim with
  | zero => exact absurd hlim (by simp)
  | succ n => simp

/-! ## Serialization round-trip -/

theorem roundtrip_termTable (pls : List (String × List Posting)) (pre : List Posting) :
    (buildTermTable pls pre.length).map (fun e => (e.term,
      readPostingList (pre ++ (pls.map Prod.snd).flatten)
        e.postingListOffset e.postingListLength)) = pls := by
  induction pls generalizing pre with
  | nil => rfl
  | cons e rest ih =>
    rcases e with ⟨t, l⟩
    rw [buildTermTable, List.map_cons]
    have hhead : readPostingList (pre ++ (((t, l) :: rest).map Prod.snd).flatten)
        pre.length l.length = l := by
      rw [readPostingList]
      rw [show (((t, l) :: rest).map Prod.snd).flatten =
        l ++ (rest.map Prod.snd).flatten from rfl]
      rw [List.drop_left, List.take_left]
    have htail : (buildTermTable rest (pre.length + l.length)).map (fun e => (e.term,
        readPostingList (pre ++ (((t, l) :: rest).map Prod.snd).flatten)
          e.postingListOffset e.postingListLength)) = rest := by
      have hlen : pre.length + l.length = (pre ++ l).length := (List.length_append pre l).symm
      have hblock : pre ++ (((t, l) :: rest).map Prod.snd).flatten =
          (pre ++ l) ++ (rest.map Prod.snd).flatten := by
        rw [show (((t, l) :: rest).map Prod.snd).flatten =
          l ++ (rest.map Prod.snd).flatten from rfl, List.append_assoc]
      rw [hlen, hblock]
      exact ih (pre ++ l)
    rw [hhead, htail]

theorem deserialize_serialize (s : IndexSnapshot) :
    ∃ s' : IndexSnapshot, deserializeSnapshot (serializeSnapshot s) = some s' ∧
      s'.documents = s.documents ∧ s'.postingLists = s.postingLists ∧
      s'.generation = s.generation := by
  rw [deserializeSnapshot, if_pos (⟨rfl, rfl⟩ : (serializeSnapshot s).header.magic =
    SNAPSHOT_MAGIC ∧ (serializeSnapshot s).header.formatVersion = FORMAT_VERSION)]
  refine ⟨_, rfl, rfl, ?_, rfl⟩
  simpa using roundtrip_termTable s.postingLists []

/-! ## Manager-step helper lemmas -/

theorem findDoc_setDocument (docs : List DocInfo) (info : DocInfo) :
    findDoc (setDocument docs info) info.docId = some info := by
  rw [setDocument, findDoc]
  exact List.find?_cons_of_pos _ (by simp)

theorem snap_after_incr_updated {s : IndexSnapshot} {d : Nat} {text contentHash : String}
    {now : Nat} (hupd : (indexTextIncremental s d text contentHash now).2.updated = true) :
    (indexTextIncremental s d text contentHash now).1 =
      applyDocUpdate s d text contentHash now := by
  cases hfind : findDoc s.documents d with
  | none => rw [indexTextIncremental_of_none text contentHash now hfind]
  | some info =>
    by_cases hh : info.contentHash = contentHash
    · rw [indexTextIncremental_of_some_eq text now hfind hh] at hupd
      cases hupd
    · rw [indexTextIncremental_of_some_ne text now hfind hh]

theorem generation_incr_updated {s : IndexSnapshot} {d : Nat} {text contentHash : String}
    {now : Nat} (hupd : (indexTextIncremental s d text contentHash now).2.updated = true) :
    (indexTextIncremental s d text contentHash now).1.generation = s.generation + 1 := by
  rw [snap_after_incr_updated hupd]
  rfl

theorem generation_remove_removed {s : IndexSnapshot} {d : Nat}
    (hrem : (removeIndexedDoc s d).2.removed = true) :
    (removeIndexedDoc s d).1.generation = s.generation + 1 := by
  cases hfind : findDoc s.documents d with
  | none =>
    rw [removeIndexedDoc_of_none hfind] at hrem
    cases hrem
  | some info =>
    rw [removeIndexedDoc_of_some hfind]

theorem persistSnapshot_false (disk : Option SnapshotFile) (s : IndexSnapshot) :
    persistSnapshot disk s false = disk := rfl

theorem persistSnapshot_true {disk : Option SnapshotFile} {s : IndexSnapshot}
    (h : diskGeneration disk ≤ s.generation) :
    persistSnapshot disk s true = some (serializeSnapshot s) := by
  rw [persistSnapshot, if_pos rfl, if_pos h]

theorem contentHash_after_incr (st : ManagerState) (d : Nat) (text contentHash : String)
    (now : Nat) (writeOk : Bool) :
    ∃ info : DocInfo,
      findDoc (stepManager st (.incrOp d text contentHash now) writeOk).1.snap.documents d =
        some info ∧ info.contentHash = contentHash := by
  rw [stepManager_incrOp]
  cases hfind : findDoc st.snap.documents d with
  | none =>
    rw [indexTextIncremental_of_none text contentHash now hfind]
    refine ⟨⟨d, contentHash, text.length, now⟩, ?_, rfl⟩
    show findDoc (setDocument (removeDocument st.snap d).documents
      ⟨d, contentHash, text.length, now⟩) d = _
    exact findDoc_setDocument _ _
  | some info =>
    by_cases hh : info.contentHash = contentHash
    · rw [indexTextIncremental_of_some_eq text now hfind hh]
      exact ⟨info, hfind, hh⟩
    · rw [indexTextIncremental_of_some_ne text now hfind hh]
      refine ⟨⟨d, contentHash, text.length, now⟩, ?_, rfl⟩
      show findDoc (setDocument (removeDocument st.snap d).documents
        ⟨d, contentHash, text.length, now⟩) d = _
      exact findDoc_setDocument _ _

/-! ## The claims -/

/-- C1: write-then-read: indexing a document `d` whose new content contains
term `t`, where `t` occurs in no other indexed document, and then immediately
searching for a query tokenizing to exactly `t`, returns a result list that
includes `d` (stated with offset 0 and any nonzero limit, and with the
supplied content hash differing from any stored one so the write is not the
idempotent no-op). -/
theorem claim1_write_then_read {s : IndexSnapshot} {d : Nat}
    {text contentHash q t : String} {now lim : Nat} (hwf : WfSnap s)
    (hchanged : ∀ info, findDoc s.documents d = some info →
      info.contentHash ≠ contentHash)
    (hq : queryTerms q = [t]) (ht : t ∈ termsOf (tokenize text))
    (huniq : ∀ p ∈ lookupPL s.postingLists t, p.docId = d) (hlim : 1 ≤ lim) :
    d ∈ (searchIndexSnap (indexTextIncremental s d text contentHash now).1 q lim 0).map
      SearchHit.docId := by
  have hsnap : (indexTextIncremental s d text contentHash now).1 =
      applyDocUpdate s d text contentHash now := by
    cases hfind : findDoc s.documents d with
    | none => rw [indexTextIncremental_of_none text contentHash now hfind]
    | some info =>
      rw [indexTextIncremental_of_some_ne text now hfind (hchanged info hfind)]
  rw [hsnap, search_after_update hwf contentHash now hq ht huniq hlim]
  exact List.mem_singleton.mpr rfl

theorem claim1_witness :
    queryTerms "fox" = ["fox"] ∧ "fox" ∈ termsOf (tokenize "fox") ∧ 1 ≤ 10 ∧
      1 ∈ (searchIndexSnap
        (indexTextIncremental (emptySnapshot 0) 1 "fox" "h" 0).1 "fox" 10 0).map
        SearchHit.docId :=
  ⟨by decide, by decide, by decide,
    @claim1_write_then_read (emptySnapshot 0) 1 "fox" "h" "fox" "fox" 0 10
      (wf_emptySnapshot 0)
      (fun info h => by simp [findDoc, emptySnapshot] at h)
      (by decide) (by decide)
      (fun p hp => by simp [lookupPL, emptySnapshot] at hp) (by decide)⟩

/-- C2: idempotent re-index: after any `indexTextIncremental` call for
`(docId, contentHash)`, a second call with the same `docId` and the same
`contentHash` returns `{updated := false}`, surfaces no persistence error,
and leaves the whole manager state — snapshot (posting lists, scores,
`lastIndexedAt`) and the persisted file — exactly unchanged. -/
theorem claim2_idempotent_reindex (st : ManagerState) (d : Nat)
    (text contentHash : String) (now : Nat) (writeOk : Bool)
    (text2 : String) (now2 : Nat) (writeOk2 : Bool) :
    stepManager (stepManager st (.incrOp d text contentHash now) writeOk).1
        (.incrOp d text2 contentHash now2) writeOk2 =
      ((stepManager st (.incrOp d text contentHash now) writeOk).1,
        ⟨.updateRes ⟨false, 0⟩, false⟩) := by
  obtain ⟨info, hfind, hhash⟩ := contentHash_after_incr st d text contentHash now writeOk
  rw [stepManager_incrOp, indexTextIncremental_of_some_eq text2 now2 hfind hhash]
  rfl

/-- C3: deletion completeness: removing a previously indexed document leaves
no posting referencing it in any posting list, drops posting lists that
became empty (none of the surviving lists is empty), and leaves no
reverse-map entry for it. -/
theorem claim3_deletion_complete {s : IndexSnapshot} {d : Nat} {info : DocInfo}
    (hwf : WfSnap s) (hfind : findDoc s.documents d = some info) :
    (∀ e ∈ (removeIndexedDoc s d).1.postingLists, ∀ p ∈ e.2, p.docId ≠ d) ∧
    (∀ e ∈ (removeIndexedDoc s d).1.postingLists, e.2 ≠ []) ∧
    (∀ e ∈ (removeIndexedDoc s d).1.reverseMap, e.1 ≠ d) := by
  rw [removeIndexedDoc_of_some hfind]
  refine ⟨?_, ?_, ?_⟩
  · intro e he p hp hpd
    have hlk : lookupPL (removeDocument s d).postingLists e.1 = e.2 :=
      lookupPL_of_mem_nodup (keys_removeDocPostings_nodup hwf.keysNodup) he
    exact no_docId_after_removeDocument hwf d e.1 ⟨p, by rw [hlk]; exact hp, hpd⟩
  · intro e he
    exact (entries_removeDocument hwf d e he).2.1
  · intro e he hed
    have hne : ¬ e.1 = d := by simpa using (List.mem_filter.mp he).2
    exact hne hed

theorem claim3_witness :
    findDoc (applyDocUpdate (emptySnapshot 0) 1 "fox" "h" 0).documents 1 =
        some ⟨1, "h", 3, 0⟩ ∧
      ((∀ e ∈ (removeIndexedDoc (applyDocUpdate (emptySnapshot 0) 1 "fox" "h" 0)
          1).1.postingLists, ∀ p ∈ e.2, p.docId ≠ 1) ∧
       (∀ e ∈ (removeIndexedDoc (applyDocUpdate (emptySnapshot 0) 1 "fox" "h" 0)
          1).1.postingLists, e.2 ≠ []) ∧
       (∀ e ∈ (removeIndexedDoc (applyDocUpdate (emptySnapshot 0) 1 "fox" "h" 0)
          1).1.reverseMap, e.1 ≠ 1)) :=
  ⟨by decide,
    @claim3_deletion_complete (applyDocUpdate (emptySnapshot 0) 1 "fox" "h" 0) 1
      ⟨1, "h", 3, 0⟩ (wf_applyDocUpdate (wf_emptySnapshot 0) 1 "fox" "h" 0)
      (by decide)⟩

/-- C4: structural invariants hold in every reachable index state: posting
lists are sorted by ascending `docId`, every stored term frequency is at
least 1, and the reverse map and the posting lists are bidirectionally
consistent. -/
theorem claim4_invariants {st : ManagerState} (h : Reachable st) :
    (∀ e ∈ st.snap.postingLists, e.2.Pairwise (fun p q => p.docId < q.docId)) ∧
    (∀ e ∈ st.snap.postingLists, ∀ p ∈ e.2, 1 ≤ p.termFrequency) ∧
    (∀ (d : Nat) (t : String),
      inReverse st.snap.reverseMap d t ↔ inPostings st.snap.postingLists t d) := by
  have hwf := (managerInv_reachable h).1
  exact ⟨hwf.sortedPL, hwf.tfPos, hwf.consistent⟩

theorem claim4_witness :
    Reachable ((stepManager (createIndexState true) (.incrOp 1 "fox" "h" 0) true).1) ∧
      ((∀ e ∈ (stepManager (createIndexState true)
          (.incrOp 1 "fox" "h" 0) true).1.snap.postingLists,
        e.2.Pairwise (fun p q => p.docId < q.docId)) ∧
       (∀ e ∈ (stepManager (createIndexState true)
          (.incrOp 1 "fox" "h" 0) true).1.snap.postingLists,
        ∀ p ∈ e.2, 1 ≤ p.termFrequency) ∧
       (∀ (d : Nat) (t : String),
        inReverse (stepManager (createIndexState true)
          (.incrOp 1 "fox" "h" 0) true).1.snap.reverseMap d t ↔
        inPostings (stepManager (createIndexState true)
          (.incrOp 1 "fox" "h" 0) true).1.snap.postingLists t d)) :=
  ⟨Reachable.step (StepOp.incrOp 1 "fox" "h" 0) true (Reachable.created true),
    claim4_invariants
      (Reachable.step (StepOp.incrOp 1 "fox" "h" 0) true (Reachable.created true))⟩

/-- C5: the snapshot generation strictly increases (by exactly one) on every
mutating operation that reports a mutation, and the generation committed on
disk never decreases across any persistence attempt — in particular a write
carrying an older snapshot than the one on disk is refused by the
generation guard. -/
theorem claim5_generation_monotone :
    (∀ (st : ManagerState) (op : StepOp) (writeOk : Bool),
      mutatedOutcome (stepManager st op writeOk).2 = true →
        (stepManager st op writeOk).1.snap.generation = st.snap.generation + 1) ∧
    (∀ (disk : Option SnapshotFile) (s : IndexSnapshot) (writeOk : Bool),
      diskGeneration disk ≤ diskGeneration (persistSnapshot disk s writeOk)) := by
  constructor
  · intro st op writeOk hmut
    cases op with
    | clearOp =>
      rw [stepManager_clearOp]
      rfl
    | incrOp d text h now =>
      rw [stepManager_incrOp] at hmut ⊢
      by_cases hupd : (indexTextIncremental st.snap d text h now).2.updated = true
      · rw [if_pos hupd]
        exact generation_incr_updated hupd
      · rw [if_neg hupd] at hmut
        exact absurd hmut hupd
    | removeOp d =>
      rw [stepManager_removeOp] at hmut ⊢
      by_cases hrem : (removeIndexedDoc st.snap d).2.removed = true
      · rw [if_pos hrem]
        exact generation_remove_removed hrem
      · rw [if_neg hrem] at hmut
        exact absurd hmut hrem
  · intro disk s writeOk
    exact diskGeneration_persist_mono disk s writeOk

theorem claim5_witness :
    mutatedOutcome (stepManager (createIndexState true) .clearOp true).2 = true ∧
      (stepManager (createIndexState true) .clearOp true).1.snap.generation =
        (createIndexState true).snap.generation + 1 :=
  ⟨rfl, claim5_generation_monotone.1 (createIndexState true) .clearOp true rfl⟩

/-- C6: deterministic ranking: the result list of a search over a
well-formed snapshot is ordered by strictly descending real TF-IDF score,
with ties broken by more recent `lastIndexedAt` and then by ascending
`docId`; `limit` and `offset` are applied to the final ordered list.
Repeated identical calls return identical lists because `searchIndexSnap`
is a pure function of the snapshot and the query. -/
theorem claim6_deterministic_ranking {s : IndexSnapshot} (hwf : WfSnap s) (q : String)
    (lim off : Nat) :
    (searchIndexSnap s q lim off).Pairwise (fun a b =>
      Real.log (b.scoreOf : ℝ) < Real.log (a.scoreOf : ℝ) ∨
      (Real.log (a.scoreOf : ℝ) = Real.log (b.scoreOf : ℝ) ∧
        (b.lastIndexedAt < a.lastIndexedAt ∨
          (a.lastIndexedAt = b.lastIndexedAt ∧ a.docId < b.docId)))) ∧
    searchIndexSnap s q lim off =
      ((searchAll s.documents s.postingLists q).drop off).take lim := by
  refine ⟨?_, rfl⟩
  have hfull := searchAll_pairwise s.documents s.postingLists q
  have hlog : (searchAll s.documents s.postingLists q).Pairwise (fun a b =>
      Real.log (b.scoreOf : ℝ) < Real.log (a.scoreOf : ℝ) ∨
      (Real.log (a.scoreOf : ℝ) = Real.log (b.scoreOf : ℝ) ∧
        (b.lastIndexedAt < a.lastIndexedAt ∨
          (a.lastIndexedAt = b.lastIndexedAt ∧ a.docId < b.docId)))) := by
    refine List.Pairwise.imp_of_mem ?_ hfull
    intro a b ha hb hab
    have hpa := scoreOf_searchAll_pos hwf ha
    have hpb := scoreOf_searchAll_pos hwf hb
    rcases hab with h | ⟨hs, hrest⟩
    · exact Or.inl ((log_lt_log_iff_of_key hpa hpb).mp h)
    · exact Or.inr ⟨(log_eq_log_iff_of_key hpa hpb).mp hs, hrest⟩
  exact List.Pairwise.sublist
    ((List.take_sublist _ _).trans (List.drop_sublist _ _)) hlog

theorem claim6_witness :
    (searchIndexSnap (emptySnapshot 0) "a" 5 0).Pairwise (fun a b =>
      Real.log (b.scoreOf : ℝ) < Real.log (a.scoreOf : ℝ) ∨
      (Real.log (a.scoreOf : ℝ) = Real.log (b.scoreOf : ℝ) ∧
        (b.lastIndexedAt < a.lastIndexedAt ∨
          (a.lastIndexedAt = b.lastIndexedAt ∧ a.docId < b.docId)))) ∧
    searchIndexSnap (emptySnapshot 0) "a" 5 0 =
      ((searchAll (emptySnapshot 0).documents (emptySnapshot 0).postingLists "a").drop
        0).take 5 :=
  claim6_deterministic_ranking (wf_emptySnapshot 0) "a" 5 0

/-- C7: the score `searchIndex` assigns a candidate document equals the sum
over the query's terms of
`termFrequencyInDoc * log (totalDocuments / (1 + documentFrequency))`. -/
theorem claim7_tfidf_score {s : IndexSnapshot} {q : String} {d : Nat} (hwf : WfSnap s)
    (hd : d ∈ candidateIds s.postingLists (queryTerms q)) :
    tfidfScore s.documents s.postingLists (queryTerms q) d =
      ((queryTerms q).map (fun t => (termFreqInDoc s.postingLists t d : ℝ) *
        Real.log ((s.documents.length : ℝ) / (1 + docFreq s.postingLists t)))).sum :=
  tfidfScore_eq_sum _ _ _ _ (docs_nonempty_of_candidate hwf hd)

theorem claim7_witness :
    1 ∈ candidateIds (applyDocUpdate (emptySnapshot 0) 1 "fox" "h" 0).postingLists
        (queryTerms "fox") ∧
      tfidfScore (applyDocUpdate (emptySnapshot 0) 1 "fox" "h" 0).documents
          (applyDocUpdate (emptySnapshot 0) 1 "fox" "h" 0).postingLists
          (queryTerms "fox") 1 =
        ((queryTerms "fox").map (fun t =>
          (termFreqInDoc (applyDocUpdate (emptySnapshot 0) 1 "fox" "h" 0).postingLists
            t 1 : ℝ) *
          Real.log (((applyDocUpdate (emptySnapshot 0) 1 "fox" "h" 0).documents.length :
            ℝ) / (1 + docFreq (applyDocUpdate (emptySnapshot 0) 1 "fox" "h"
            0).postingLists t)))).sum :=
  ⟨by decide,
    claim7_tfidf_score (wf_applyDocUpdate (wf_emptySnapshot 0) 1 "fox" "h" 0)
      (by decide)⟩

/-- C8: persistence round-trip fidelity: serializing any snapshot and
deserializing the file yields a snapshot on which every search — any query,
limit and offset — returns exactly the results of the original. -/
theorem claim8_roundtrip (s : IndexSnapshot) (q : String) (lim off : Nat) :
    ∃ s' : IndexSnapshot, deserializeSnapshot (serializeSnapshot s) = some s' ∧
      searchIndexSnap s' q lim off = searchIndexSnap s q lim off := by
  rcases deserialize_serialize s with ⟨s', h1, hdoc, hpls, -⟩
  refine ⟨s', h1, ?_⟩
  show ((searchAll s'.documents s'.postingLists q).drop off).take lim =
    ((searchAll s.documents s.postingLists q).drop off).take lim
  rw [hdoc, hpls]

/-- C9: removing an unknown docId is an explicit no-op: the manager returns
`{removed := false}` with no error and the whole state, in memory and on
disk, is unchanged — deletions are safe to retry blindly. -/
theorem claim9_remove_unknown_noop {st : ManagerState} {d : Nat} (writeOk : Bool)
    (h : findDoc st.snap.documents d = none) :
    stepManager st (.removeOp d) writeOk = (st, ⟨.removeRes ⟨false⟩, false⟩) := by
  rw [stepManager_removeOp, removeIndexedDoc_of_none h]
  rfl

theorem claim9_witness :
    findDoc (createIndexState true).snap.documents 7 = none ∧
      stepManager (createIndexState true) (.removeOp 7) true =
        (createIndexState true, ⟨.removeRes ⟨false⟩, false⟩) :=
  ⟨rfl, claim9_remove_unknown_noop true rfl⟩

/-- C10: a failed durable write is atomic with respect to the in-memory
index: the published snapshot is exactly the one a successful write would
have published (and is well-formed), the disk keeps the previously
committed file, the caller is handed a persistence error, and retrying the
write afterwards commits the pending snapshot. -/
theorem claim10_persistence_failure {st : ManagerState} {op : StepOp}
    (hre : Reachable st)
    (hmut : mutatedOutcome (stepManager st op false).2 = true) :
    (stepManager st op false).1.snap = (stepManager st op true).1.snap ∧
    (stepManager st op false).1.disk = st.disk ∧
    (stepManager st op false).2.persistenceError = true ∧
    WfSnap (stepManager st op false).1.snap ∧
    persistSnapshot (stepManager st op false).1.disk (stepManager st op false).1.snap
        true =
      some (serializeSnapshot (stepManager st op false).1.snap) := by
  have hinv := managerInv_reachable hre
  cases op with
  | clearOp =>
    rw [stepManager_clearOp, stepManager_clearOp]
    refine ⟨rfl, rfl, rfl, wf_emptySnapshot _, ?_⟩
    refine persistSnapshot_true ?_
    show diskGeneration st.disk ≤ st.snap.generation + 1
    exact hinv.2.trans (Nat.le_succ _)
  | incrOp d text h now =>
    rw [stepManager_incrOp] at hmut ⊢
    rw [stepManager_incrOp]
    by_cases hupd : (indexTextIncremental st.snap d text h now).2.updated = true
    · rw [if_pos hupd, if_pos hupd]
      refine ⟨rfl, rfl, rfl, wf_indexTextIncremental hinv.1 d text h now, ?_⟩
      refine persistSnapshot_true ?_
      show diskGeneration st.disk ≤
        (indexTextIncremental st.snap d text h now).1.generation
      rw [generation_incr_updated hupd]
      exact hinv.2.trans (Nat.le_succ _)
    · rw [if_neg hupd] at hmut
      exact absurd hmut hupd
  | removeOp d =>
    rw [stepManager_removeOp] at hmut ⊢
    rw [stepManager_removeOp]
    by_cases hrem : (removeIndexedDoc st.snap d).2.removed = true
    · rw [if_pos hrem, if_pos hrem]
      refine ⟨rfl, rfl, rfl, wf_removeIndexedDoc hinv.1 d, ?_⟩
      refine persistSnapshot_true ?_
      show diskGeneration st.disk ≤ (removeIndexedDoc st.snap d).1.generation
      rw [generation_remove_removed hrem]
      exact hinv.2.trans (Nat.le_succ _)
    · rw [if_neg hrem] at hmut
      exact absurd hmut hrem

theorem claim10_witness :
    Reachable (createIndexState true) ∧
      mutatedOutcome (stepManager (createIndexState true) .clearOp false).2 = true ∧
      ((stepManager (createIndexState true) .clearOp false).1.snap =
          (stepManager (createIndexState true) .clearOp true).1.snap ∧
        (stepManager (createIndexState true) .clearOp false).1.disk =
          (createIndexState true).disk ∧
        (stepManager (createIndexState true) .clearOp false).2.persistenceError = true ∧
        WfSnap (stepManager (createIndexState true) .clearOp false).1.snap ∧
        persistSnapshot (stepManager (createIndexState true) .clearOp false).1.disk
            (stepManager (createIndexState true) .clearOp false).1.snap true =
          some (serializeSnapshot
            (stepManager (createIndexState true) .clearOp false).1.snap)) :=
  ⟨Reachable.created true, rfl,
    claim10_persistence_failure (Reachable.created true) rfl⟩

end Simnote
